import Mathlib

/-!
Verification of the indexing/synchronization engine of the local RAG server
(`server/services/indexing_service.go` and the note-ingestion path of
`server/services/rag_service.go`).

The VectorStore (ChromaDB collection) is modelled as a list of documents in
insertion order.  External effects (file hashing, file reading plus text
splitting, per-chunk embedding, per-chunk insertion, delete-where) are
modelled by explicit outcome data threaded through the interpreter: each
walked file carries the outcome of hashing and of reading/splitting, each
chunk carries the outcome of its embedding call and of its store insertion,
and an environment records which delete-where calls succeed.  Every mutation
of the store is also recorded in a trace, so that ordering properties can be
stated about one scan or one watcher event.
-/

namespace LocalRag

/-- Chunk metadata as stored in the collection.  The indexer writes
`source_file`, `file_hash` and `chunk_num`; the user-note ingestion path
writes only `source`.  An absent attribute is `none`. -/
structure Metadata where
  source_file : Option String
  file_hash : Option String
  chunk_num : Option Nat
  source : Option String
deriving DecidableEq, Repr

/-- One stored document: its text and its metadata.  Ids are fresh UUIDs in
the source and carry no information, so they are omitted. -/
structure Doc where
  text : String
  meta : Metadata
deriving DecidableEq, Repr

/-- The collection, in insertion order. -/
abbrev Store := List Doc

/-- A mutation issued to the collection: a delete-where on `source_file`, or
an insertion of one chunk document. -/
inductive StoreOp where
  | del (path : String)
  | add (path hash : String) (i : Nat) (text : String)
deriving DecidableEq, Repr

/-- The store together with the trace of mutations issued so far. -/
structure Run where
  store : Store
  trace : List StoreOp
deriving DecidableEq, Repr

/-- `filepath.Ext`: scan the path from the end; the extension starts at the
final dot, and is empty if a path separator or the start of the string is
reached first.  The argument is the reversed character list; `acc` collects
the characters already passed (restored to source order). -/
def extRevAux (acc : List Char) : List Char → Option (List Char)
  | [] => none
  | c :: rest =>
    if c = '/' then none
    else if c = '.' then some ('.' :: acc)
    else extRevAux (c :: acc) rest

/-- `filepath.Ext path`. -/
def filepathExt (path : String) : String :=
  match extRevAux [] path.data.reverse with
  | some cs => String.mk cs
  | none => ""

/-- `strings.ToLower`, applied characterwise; `Char.toLower` lower-cases
the ASCII letters, which is all the extension comparison depends on. -/
def toLowerStr (s : String) : String :=
  String.mk (s.data.map Char.toLower)

/-- `isSupportedFile` from `indexing_service.go`: lower-case the extension
and accept exactly `.txt` and `.md`. -/
def isSupportedFile (path : String) : Bool :=
  let ext := toLowerStr (filepathExt path)
  ext == ".txt" || ext == ".md"

/-- The document inserted for chunk `i` of file `path` at content hash
`hash`: metadata carries `source_file`, `file_hash` and `chunk_num`. -/
def mkChunkDoc (path hash : String) (i : Nat) (text : String) : Doc :=
  { text := text
    meta :=
      { source_file := some path
        file_hash := some hash
        chunk_num := some i
        source := none } }

/-- One chunk of a split file, together with the outcome of the two external
calls made for it: the embedding request and the collection insertion. -/
structure ChunkRun where
  text : String
  embedOk : Bool
  addOk : Bool
deriving DecidableEq, Repr

/-- The documents produced by successfully indexing the chunks `cs` of
`path` starting at chunk number `i`. -/
def mkChunkDocs (path hash : String) (i : Nat) : List ChunkRun → Store
  | [] => []
  | c :: rest => mkChunkDoc path hash i c.text :: mkChunkDocs path hash (i + 1) rest

/-- `deleteDocumentsByFilepath`: delete-where `source_file == path`.
Documents without a `source_file` attribute never match the filter. -/
def deleteDocumentsByFilepath (store : Store) (path : String) : Store :=
  store.filter (fun d => !(d.meta.source_file == some path))

/-- `getCurrentIndexState`, as the map it builds applied to a path: walk the
stored metadata in order and return the `file_hash` of the first document
whose metadata carries both `source_file = path` and a `file_hash`
(first occurrence wins; later documents for the same path are ignored). -/
def getCurrentIndexState : Store → String → Option String
  | [], _ => none
  | d :: rest, p =>
    match d.meta.source_file, d.meta.file_hash with
    | some q, some h => if q = p then some h else getCurrentIndexState rest p
    | _, _ => getCurrentIndexState rest p

/-- The key set of the map built by `getCurrentIndexState`: every path that
occurs in some stored metadata together with a `file_hash`. -/
def snapshotPaths : Store → List String
  | [] => []
  | d :: rest =>
    match d.meta.source_file, d.meta.file_hash with
    | some p, some _ =>
      let s := snapshotPaths rest
      if p ∈ s then s else p :: s
    | _, _ => snapshotPaths rest

/-- The documents of the store whose `source_file` is `p`, in store order
(an observation function used to state properties, not a source
function). -/
def docsFor : Store → String → Store
  | [], _ => []
  | d :: rest, p =>
    if d.meta.source_file = some p then d :: docsFor rest p else docsFor rest p

/-- Record a successful insertion of one chunk document. -/
def doAdd (r : Run) (path hash : String) (i : Nat) (text : String) : Run :=
  { store := r.store ++ [mkChunkDoc path hash i text]
    trace := r.trace ++ [StoreOp.add path hash i text] }

/-- Record a successful delete-where on `source_file = path`. -/
def doDelete (r : Run) (path : String) : Run :=
  { store := deleteDocumentsByFilepath r.store path
    trace := r.trace ++ [StoreOp.del path] }

/-- The chunk loop of `processAndEmbedFile`: embed each chunk and add it to
the collection; on the first embedding or insertion failure return an error
(`false`) at once, leaving the chunks already added in place and processing
no further chunk. -/
def addChunksFrom (r : Run) (path hash : String) (i : Nat) :
    List ChunkRun → Run × Bool
  | [] => (r, true)
  | c :: rest =>
    if c.embedOk then
      if c.addOk then addChunksFrom (doAdd r path hash i c.text) path hash (i + 1) rest
      else (r, false)
    else (r, false)

/-- `processAndEmbedFile path hash`: read the file and split it into chunks
(`readRes = none` models a read error, returned at once), then run the chunk
loop. -/
def processAndEmbedFile (r : Run) (path hash : String)
    (readRes : Option (List ChunkRun)) : Run × Bool :=
  match readRes with
  | none => (r, false)
  | some chunks => addChunksFrom r path hash 0 chunks

/-- One invocation of the walk callback that returned without a walk error:
the visited path, whether it is a directory, the outcome of
`calculateFileHash` (`none` models a hash error) and the outcome of reading
and splitting the file. -/
structure FileRun where
  path : String
  isDir : Bool
  hashResult : Option String
  readRes : Option (List ChunkRun)
deriving DecidableEq

/-- Which delete-where calls succeed. -/
structure Env where
  deleteOk : String → Bool

/-- The environment in which every delete-where call succeeds. -/
def allOk : Env := { deleteOk := fun _ => true }

/-- A walked file on which no per-file error occurs: if it is a supported
regular file then its hash is computed, it is read and split successfully,
and every chunk embeds and inserts successfully.  Note that splitting into
zero chunks (an empty or whitespace-only file) is not an error in the
source: SplitText returns an empty slice with a nil error. -/
def goodFile (e : FileRun) : Bool :=
  e.isDir || !isSupportedFile e.path ||
    (e.hashResult.isSome &&
      match e.readRes with
      | some cs => cs.all (fun c => c.embedOk && c.addOk)
      | none => false)

/-- The body of the walk callback of `ScanAndIndexDirectory` for one visited
entry.  Directories and unsupported files are skipped.  For a supported
file, the path is recorded in `localFiles` first; then the file is hashed (a
hash error skips the file, leaving it recorded); if the snapshot holds the
same hash the file is skipped; if it holds a different hash the stale chunks
are deleted first (a delete error skips the file); then the file is
processed and embedded (its error is only logged). -/
def scanStep (env : Env) (snap : Store) (acc : Run × List String) (e : FileRun) :
    Run × List String :=
  let r := acc.1
  let localFiles := acc.2
  if e.isDir || !isSupportedFile e.path then acc
  else
    let localFiles := localFiles ++ [e.path]
    match e.hashResult with
    | none => (r, localFiles)
    | some h =>
      match getCurrentIndexState snap e.path with
      | some oldH =>
        if oldH = h then (r, localFiles)
        else if env.deleteOk e.path then
          ((processAndEmbedFile (doDelete r e.path) e.path h e.readRes).1, localFiles)
        else (r, localFiles)
      | none => ((processAndEmbedFile r e.path h e.readRes).1, localFiles)

/-- The supported regular-file paths among the walked entries, in walk
order: exactly the paths the walk records in `localFiles`. -/
def walkedPaths (files : List FileRun) : List String :=
  (files.filter (fun e => !e.isDir && isSupportedFile e.path)).map (fun e => e.path)

/-- The deletion phase of `ScanAndIndexDirectory`: for every path of the
snapshot not observed during the walk, delete its chunks; a delete error is
logged and the loop continues. -/
def deletePhase (env : Env) (snapPaths localFiles : List String) (r : Run) : Run :=
  snapPaths.foldl
    (fun r p =>
      if p ∈ localFiles then r
      else if env.deleteOk p then doDelete r p
      else r)
    r

/-- One invocation of `ScanAndIndexDirectory`: whether `collection.Get`
inside `getCurrentIndexState` succeeds, the walk entries visited without a
walk error, and whether the walk then returned an error (cutting the visit
short). -/
structure ScanInput where
  getOk : Bool
  files : List FileRun
  walkFailed : Bool

/-- `ScanAndIndexDirectory`.  If the snapshot cannot be built the scan
returns at once.  Otherwise the snapshot is captured once, the walk runs the
callback on each visited entry, and then the deletion phase runs over the
snapshot.  A walk error is only logged: the Go code falls through to the
deletion phase whether or not the walk failed, which is why `walkFailed`
does not alter the result. -/
def scanAndIndexDirectory (env : Env) (store : Store) (inp : ScanInput) : Run :=
  if !inp.getOk then { store := store, trace := [] }
  else
    let snap := store
    let start : Run × List String := ({ store := store, trace := [] }, [])
    let stepped := inp.files.foldl (scanStep env snap) start
    deletePhase env (snapshotPaths snap) stepped.2 stepped.1

/-- One filesystem notification delivered to the watcher goroutine: the
event name, which operation bits are set, and the outcomes of hashing and of
reading/splitting the named file. -/
structure WatchEvent where
  name : String
  hasWrite : Bool
  hasCreate : Bool
  hasRemove : Bool
  hasRename : Bool
  hashResult : Option String
  readRes : Option (List ChunkRun)

/-- The event handler of `WatchDirectory` for one event.  Unsupported names
are ignored.  Write/Create: hash the file (a hash error skips the event),
delete the old chunks for the path with the error ignored, then process and
embed the file.  Remove/Rename: delete the chunks for the path. -/
def handleWatchEvent (env : Env) (store : Store) (ev : WatchEvent) : Run :=
  let r : Run := { store := store, trace := [] }
  if !isSupportedFile ev.name then r
  else if ev.hasWrite || ev.hasCreate then
    match ev.hashResult with
    | none => r
    | some h =>
      let r := if env.deleteOk ev.name then doDelete r ev.name else r
      (processAndEmbedFile r ev.name h ev.readRes).1
  else if ev.hasRemove || ev.hasRename then
    if env.deleteOk ev.name then doDelete r ev.name else r
  else r

/-- The document stored by `IngestNote` of `rag_service.go` for a user
note: metadata carries only `source = user_input`. -/
def noteDoc (text : String) : Doc :=
  { text := text
    meta :=
      { source_file := none
        file_hash := none
        chunk_num := none
        source := some "user_input" } }

/-- `IngestNote`: embed the note (a failure returns the error) and add one
document with the note text and the user-input metadata. -/
def ingestNote (store : Store) (text : String) (embedOk addOk : Bool) : Store :=
  if embedOk then
    if addOk then store ++ [noteDoc text] else store
  else store

/-- Store well-formedness, maintained by the indexing code itself: every
document carrying a `source_file` also carries a `file_hash`. -/
def WellFormed (store : Store) : Prop :=
  ∀ d ∈ store, d.meta.source_file.isSome → d.meta.file_hash.isSome

/-- The insert operations recorded by successfully indexing the chunks `cs`
of `path` starting at chunk number `i`. -/
def addOps (path hash : String) (i : Nat) : List ChunkRun → List StoreOp
  | [] => []
  | c :: rest => StoreOp.add path hash i c.text :: addOps path hash (i + 1) rest

/-- Whether `o` is a delete-where on path `p`. -/
def isDelFor (p : String) : StoreOp → Bool
  | StoreOp.del q => q == p
  | StoreOp.add _ _ _ _ => false

/-- Whether `o` is an insertion of a chunk of path `p`. -/
def isAddFor (p : String) : StoreOp → Bool
  | StoreOp.del _ => false
  | StoreOp.add q _ _ _ => q == p

/-- Whether the trace contains an insertion for path `p`. -/
def hasAdd (p : String) (t : List StoreOp) : Bool :=
  t.any (isAddFor p)

/-- After the first insertion for `p` no delete of `p` follows: within the
trace, every delete of `p` happens before every insertion for `p`. -/
def noDelAfterAdd (p : String) : List StoreOp → Bool
  | [] => true
  | o :: rest =>
    if isAddFor p o then rest.all (fun o2 => !isDelFor p o2)
    else noDelAfterAdd p rest

/-! ### Concrete fixtures

Small executable values used to instantiate the theorems below on concrete
inputs. -/

/-- A chunk whose embedding and insertion both succeed. -/
def okChunk : ChunkRun := { text := "hello", embedOk := true, addOk := true }

/-- A supported file that hashes, reads and indexes without error. -/
def okFile : FileRun :=
  { path := "a.txt", isDir := false, hashResult := some "h1",
    readRes := some [okChunk] }

/-- A supported file that hashes and reads without error but splits into
zero chunks, as an empty file does: no per-file error occurs, yet indexing
it inserts nothing. -/
def emptyFile : FileRun :=
  { path := "a.txt", isDir := false, hashResult := some "h1",
    readRes := some [] }

/-- A one-file scan input with a successful snapshot query and no walk
error. -/
def okScan : ScanInput := { getOk := true, files := [okFile], walkFailed := false }

/-- A chunk document already present in the store. -/
def oldDoc : Doc := mkChunkDoc "a.txt" "h0" 0 "old text"

/-- A write event for the file of `okFile` carrying a new hash. -/
def writeEvent : WatchEvent :=
  { name := "a.txt", hasWrite := true, hasCreate := false, hasRemove := false,
    hasRename := false, hashResult := some "h2", readRes := some [okChunk] }

/-! ### Basic lemmas about the store primitives -/

theorem docsFor_nil (p : String) : docsFor [] p = [] := rfl

theorem docsFor_cons (d : Doc) (s : Store) (p : String) :
    docsFor (d :: s) p =
      if d.meta.source_file = some p then d :: docsFor s p else docsFor s p := rfl

theorem docsFor_append (s t : Store) (p : String) :
    docsFor (s ++ t) p = docsFor s p ++ docsFor t p := by
  induction s with
  | nil => rfl
  | cons d rest ih =>
    by_cases hd : d.meta.source_file = some p <;>
      simp [docsFor_cons, hd, ih]

theorem mem_docsFor {store : Store} {p : String} {d : Doc} :
    d ∈ docsFor store p ↔ d ∈ store ∧ d.meta.source_file = some p := by
  induction store with
  | nil => simp [docsFor]
  | cons e rest ih =>
    by_cases he : e.meta.source_file = some p
    · simp only [docsFor_cons, if_pos he, List.mem_cons, ih]
      constructor
      · rintro (rfl | ⟨h1, h2⟩)
        · exact ⟨Or.inl rfl, he⟩
        · exact ⟨Or.inr h1, h2⟩
      · rintro ⟨rfl | h1, h2⟩
        · exact Or.inl rfl
        · exact Or.inr ⟨h1, h2⟩
    · simp only [docsFor_cons, if_neg he, List.mem_cons, ih]
      constructor
      · rintro ⟨h1, h2⟩
        exact ⟨Or.inr h1, h2⟩
      · rintro ⟨rfl | h1, h2⟩
        · exact absurd h2 he
        · exact ⟨h1, h2⟩

theorem delete_cons (d : Doc) (s : Store) (q : String) :
    deleteDocumentsByFilepath (d :: s) q =
      if d.meta.source_file = some q then deleteDocumentsByFilepath s q
      else d :: deleteDocumentsByFilepath s q := by
  simp only [deleteDocumentsByFilepath, List.filter_cons]
  by_cases hd : d.meta.source_file = some q <;> simp [hd]

theorem docsFor_delete (s : Store) (p q : String) :
    docsFor (deleteDocumentsByFilepath s q) p =
      if p = q then [] else docsFor s p := by
  induction s with
  | nil => simp [deleteDocumentsByFilepath, docsFor]
  | cons d rest ih =>
    rw [delete_cons]
    by_cases hq : d.meta.source_file = some q
    · rw [if_pos hq, ih]
      by_cases hpq : p = q
      · simp [hpq]
      · rw [if_neg hpq, if_neg hpq, docsFor_cons]
        have hp : ¬d.meta.source_file = some p := by
          rw [hq]; simp; intro h; exact hpq h.symm
        rw [if_neg hp]
    · rw [if_neg hq, docsFor_cons, docsFor_cons, ih]
      by_cases hpq : p = q
      · subst hpq
        rw [if_neg hq, if_pos rfl, if_pos rfl]
      · by_cases hp : d.meta.source_file = some p <;>
          simp [hp, hpq]

theorem mem_delete_of_none {s : Store} {q : String} {d : Doc}
    (hd : d ∈ s) (hsf : d.meta.source_file = none) :
    d ∈ deleteDocumentsByFilepath s q := by
  induction s with
  | nil => cases hd
  | cons e rest ih =>
    rw [delete_cons]
    rcases List.mem_cons.mp hd with rfl | hmem
    · rw [if_neg (by simp [hsf])]
      exact List.mem_cons_self _ _
    · by_cases he : e.meta.source_file = some q
      · rw [if_pos he]; exact ih hmem
      · rw [if_neg he]; exact List.mem_cons_of_mem _ (ih hmem)

theorem docsFor_mkChunkDocs (q h : String) (i : Nat) (cs : List ChunkRun) (p : String) :
    docsFor (mkChunkDocs q h i cs) p =
      if p = q then mkChunkDocs q h i cs else [] := by
  induction cs generalizing i with
  | nil => simp [mkChunkDocs, docsFor]
  | cons c rest ih =>
    by_cases hpq : p = q
    · subst hpq
      simp only [mkChunkDocs, docsFor_cons, mkChunkDoc, if_pos rfl]
      rw [ih (i + 1)]
      simp
    · simp only [mkChunkDocs, docsFor_cons, mkChunkDoc]
      rw [if_neg (by simp; intro hc; exact hpq hc.symm)]
      rw [ih (i + 1)]
      simp [hpq]

theorem mem_mkChunkDocs_sf {q h : String} {i : Nat} {cs : List ChunkRun} {d : Doc}
    (hd : d ∈ mkChunkDocs q h i cs) :
    d.meta.source_file = some q ∧ d.meta.file_hash = some h := by
  induction cs generalizing i with
  | nil => cases hd
  | cons c rest ih =>
    rcases List.mem_cons.mp hd with rfl | hmem
    · exact ⟨rfl, rfl⟩
    · exact ih hmem

theorem snapshotPaths_cons_some {d : Doc} {p h : String}
    (hsf : d.meta.source_file = some p) (hfh : d.meta.file_hash = some h)
    (s : Store) :
    snapshotPaths (d :: s) =
      if p ∈ snapshotPaths s then snapshotPaths s else p :: snapshotPaths s := by
  simp [snapshotPaths, hsf, hfh]

theorem snapshotPaths_cons_skip {d : Doc}
    (hd : d.meta.source_file = none ∨ d.meta.file_hash = none) (s : Store) :
    snapshotPaths (d :: s) = snapshotPaths s := by
  rcases hd with h | h
  · simp [snapshotPaths, h]
  · rcases hq : d.meta.source_file with _ | q
    · simp [snapshotPaths, hq]
    · simp [snapshotPaths, hq, h]

theorem mem_snapshotPaths {store : Store} {p h : String} {d : Doc}
    (hd : d ∈ store) (hsf : d.meta.source_file = some p)
    (hfh : d.meta.file_hash = some h) : p ∈ snapshotPaths store := by
  induction store with
  | nil => cases hd
  | cons e rest ih =>
    rcases List.mem_cons.mp hd with rfl | hmem
    · rw [snapshotPaths_cons_some hsf hfh]
      split
      · assumption
      · exact List.mem_cons_self _ _
    · rcases hq : e.meta.source_file with _ | q
      · rw [snapshotPaths_cons_skip (Or.inl hq)]
        exact ih hmem
      · rcases hh : e.meta.file_hash with _ | h2
        · rw [snapshotPaths_cons_skip (Or.inr hh)]
          exact ih hmem
        · rw [snapshotPaths_cons_some hq hh]
          split
          · exact ih hmem
          · exact List.mem_cons_of_mem _ (ih hmem)

theorem snapshotPaths_sub {store : Store} {p : String}
    (hp : p ∈ snapshotPaths store) :
    ∃ d ∈ store, d.meta.source_file = some p ∧ d.meta.file_hash.isSome := by
  induction store with
  | nil => cases hp
  | cons e rest ih =>
    rcases hq : e.meta.source_file with _ | q
    · rw [snapshotPaths_cons_skip (Or.inl hq)] at hp
      obtain ⟨d, hd, h1, h2⟩ := ih hp
      exact ⟨d, List.mem_cons_of_mem _ hd, h1, h2⟩
    · rcases hh : e.meta.file_hash with _ | h2
      · rw [snapshotPaths_cons_skip (Or.inr hh)] at hp
        obtain ⟨d, hd, h1, h2⟩ := ih hp
        exact ⟨d, List.mem_cons_of_mem _ hd, h1, h2⟩
      · rw [snapshotPaths_cons_some hq hh] at hp
        by_cases hmem : q ∈ snapshotPaths rest
        · rw [if_pos hmem] at hp
          obtain ⟨d, hd, h1, h2⟩ := ih hp
          exact ⟨d, List.mem_cons_of_mem _ hd, h1, h2⟩
        · rw [if_neg hmem] at hp
          rcases List.mem_cons.mp hp with rfl | hp'
          · exact ⟨e, List.mem_cons_self _ _, hq, by simp [hh]⟩
          · obtain ⟨d, hd, h1, h2⟩ := ih hp'
            exact ⟨d, List.mem_cons_of_mem _ hd, h1, h2⟩

theorem getCurrentIndexState_cons_some {d : Doc} {p h : String}
    (hsf : d.meta.source_file = some p) (hfh : d.meta.file_hash = some h)
    (s : Store) : getCurrentIndexState (d :: s) p = some h := by
  simp [getCurrentIndexState, hsf, hfh]

theorem getCurrentIndexState_cons_skip {d : Doc} {p : String}
    (hd : ¬(d.meta.source_file = some p ∧ d.meta.file_hash.isSome)) (s : Store) :
    getCurrentIndexState (d :: s) p = getCurrentIndexState s p := by
  rcases hq : d.meta.source_file with _ | q
  · simp [getCurrentIndexState, hq]
  · rcases hh : d.meta.file_hash with _ | h2
    · simp [getCurrentIndexState, hq, hh]
    · have hqp : ¬q = p := fun hc => hd ⟨by rw [hq, hc], by simp [hh]⟩
      simp [getCurrentIndexState, hq, hh, hqp]

theorem getCurrentIndexState_eq_docsFor (store : Store) (p : String) :
    getCurrentIndexState store p =
      ((docsFor store p).filterMap (fun d => d.meta.file_hash)).head? := by
  induction store with
  | nil => rfl
  | cons d rest ih =>
    by_cases hsf : d.meta.source_file = some p
    · rcases hh : d.meta.file_hash with _ | h2
      · rw [getCurrentIndexState_cons_skip (by simp [hh]), docsFor_cons, if_pos hsf]
        simp [List.filterMap_cons, hh, ih]
      · rw [getCurrentIndexState_cons_some hsf hh, docsFor_cons, if_pos hsf]
        simp [List.filterMap_cons, hh]
    · rw [getCurrentIndexState_cons_skip (fun hc => hsf hc.1), docsFor_cons, if_neg hsf]
      exact ih

theorem getCurrentIndexState_none_docsFor {store : Store} {p : String}
    (hwf : WellFormed store) (hnone : getCurrentIndexState store p = none) :
    docsFor store p = [] := by
  rcases hds : docsFor store p with _ | ⟨d, rest⟩
  · rfl
  · exfalso
    have hd : d ∈ docsFor store p := by rw [hds]; exact List.mem_cons_self _ _
    obtain ⟨hmem, hsf⟩ := mem_docsFor.mp hd
    have hfh : d.meta.file_hash.isSome := hwf d hmem (by simp [hsf])
    rcases hfh' : d.meta.file_hash with _ | h
    · rw [hfh'] at hfh; cases hfh
    · rw [getCurrentIndexState_eq_docsFor, hds] at hnone
      simp [List.filterMap, hfh'] at hnone

/-! ### Lemmas about the per-file indexing pipeline -/

theorem docsFor_eq_nil_iff {t : Store} {p : String} :
    docsFor t p = [] ↔ ∀ d ∈ t, d.meta.source_file ≠ some p := by
  rw [List.eq_nil_iff_forall_not_mem]
  constructor
  · intro hall d hd hsf
    exact hall d (mem_docsFor.mpr ⟨hd, hsf⟩)
  · intro hall d hd
    obtain ⟨h1, h2⟩ := mem_docsFor.mp hd
    exact hall d h1 h2

theorem addChunksFrom_allOk (r : Run) (q h : String) (i : Nat) (cs : List ChunkRun)
    (hcs : ∀ c ∈ cs, c.embedOk = true ∧ c.addOk = true) :
    addChunksFrom r q h i cs =
      ({ store := r.store ++ mkChunkDocs q h i cs
         trace := r.trace ++ addOps q h i cs }, true) := by
  induction cs generalizing r i with
  | nil => simp [addChunksFrom, mkChunkDocs, addOps]
  | cons c rest ih =>
    obtain ⟨he, ha⟩ := hcs c (List.mem_cons_self _ _)
    have hrest : ∀ c2 ∈ rest, c2.embedOk = true ∧ c2.addOk = true :=
      fun c2 hc2 => hcs c2 (List.mem_cons_of_mem _ hc2)
    simp only [addChunksFrom, he, ha, if_true]
    rw [ih (doAdd r q h i c.text) (i + 1) hrest]
    simp [doAdd, mkChunkDocs, addOps]

theorem addChunksFrom_shape (r : Run) (q h : String) (i : Nat) (cs : List ChunkRun) :
    ∃ t a, (addChunksFrom r q h i cs).1.store = r.store ++ t ∧
      (addChunksFrom r q h i cs).1.trace = r.trace ++ a ∧
      (∀ d ∈ t, d.meta.source_file = some q ∧ d.meta.file_hash = some h) ∧
      (∀ o ∈ a, ∃ j tx, o = StoreOp.add q h j tx) := by
  induction cs generalizing r i with
  | nil =>
    refine ⟨[], [], by simp [addChunksFrom], by simp [addChunksFrom], ?_, ?_⟩ <;> simp
  | cons c rest ih =>
    by_cases he : c.embedOk
    · by_cases ha : c.addOk
      · obtain ⟨t, a, h1, h2, h3, h4⟩ := ih (doAdd r q h i c.text) (i + 1)
        refine ⟨mkChunkDoc q h i c.text :: t, StoreOp.add q h i c.text :: a, ?_, ?_, ?_, ?_⟩
        · simp only [addChunksFrom, he, ha, if_true]
          rw [h1]
          simp [doAdd]
        · simp only [addChunksFrom, he, ha, if_true]
          rw [h2]
          simp [doAdd]
        · intro d hd
          rcases List.mem_cons.mp hd with rfl | hmem
          · exact ⟨rfl, rfl⟩
          · exact h3 d hmem
        · intro o ho
          rcases List.mem_cons.mp ho with rfl | hmem
          · exact ⟨i, c.text, rfl⟩
          · exact h4 o hmem
      · refine ⟨[], [], ?_, ?_, ?_, ?_⟩ <;>
          simp [addChunksFrom, he, ha]
    · refine ⟨[], [], ?_, ?_, ?_, ?_⟩ <;>
        simp [addChunksFrom, he]

theorem processAndEmbedFile_allOk (r : Run) (q h : String) (cs : List ChunkRun)
    (hcs : ∀ c ∈ cs, c.embedOk = true ∧ c.addOk = true) :
    processAndEmbedFile r q h (some cs) =
      ({ store := r.store ++ mkChunkDocs q h 0 cs
         trace := r.trace ++ addOps q h 0 cs }, true) :=
  addChunksFrom_allOk r q h 0 cs hcs

theorem processAndEmbedFile_shape (r : Run) (q h : String)
    (res : Option (List ChunkRun)) :
    ∃ t a, (processAndEmbedFile r q h res).1.store = r.store ++ t ∧
      (processAndEmbedFile r q h res).1.trace = r.trace ++ a ∧
      (∀ d ∈ t, d.meta.source_file = some q ∧ d.meta.file_hash = some h) ∧
      (∀ o ∈ a, ∃ j tx, o = StoreOp.add q h j tx) := by
  rcases res with _ | cs
  · refine ⟨[], [], by simp [processAndEmbedFile], by simp [processAndEmbedFile], ?_, ?_⟩ <;>
      simp
  · exact addChunksFrom_shape r q h 0 cs

theorem docsFor_processAndEmbedFile_ne {p q : String} (hne : p ≠ q)
    (r : Run) (h : String) (res : Option (List ChunkRun)) :
    docsFor (processAndEmbedFile r q h res).1.store p = docsFor r.store p := by
  obtain ⟨t, a, h1, _, h3, _⟩ := processAndEmbedFile_shape r q h res
  rw [h1, docsFor_append]
  have : docsFor t p = [] :=
    docsFor_eq_nil_iff.mpr fun d hd hsf => hne (by
      have := (h3 d hd).1
      rw [this] at hsf
      exact (Option.some_inj.mp hsf).symm)
  rw [this, List.append_nil]

theorem mem_processAndEmbedFile {d : Doc} {r : Run}
    (hd : d ∈ r.store) (q h : String) (res : Option (List ChunkRun)) :
    d ∈ (processAndEmbedFile r q h res).1.store := by
  obtain ⟨t, a, h1, _, _, _⟩ := processAndEmbedFile_shape r q h res
  rw [h1]
  exact List.mem_append_left _ hd

/-! ### Lemmas about one step of the walk callback -/

theorem scanStep_skip (env : Env) (snap : Store) (r : Run) (l : List String)
    (e : FileRun) (he : e.isDir = true ∨ isSupportedFile e.path = false) :
    scanStep env snap (r, l) e = (r, l) := by
  rcases he with h | h <;> simp [scanStep, h]

theorem scanStep_walked_hashNone (env : Env) (snap : Store) (r : Run)
    (l : List String) (e : FileRun) (hdir : e.isDir = false)
    (hsup : isSupportedFile e.path = true) (hh : e.hashResult = none) :
    scanStep env snap (r, l) e = (r, l ++ [e.path]) := by
  simp [scanStep, hdir, hsup, hh]

theorem scanStep_walked_unchanged (env : Env) (snap : Store) (r : Run)
    (l : List String) (e : FileRun) {h : String} (hdir : e.isDir = false)
    (hsup : isSupportedFile e.path = true) (hh : e.hashResult = some h)
    (hgs : getCurrentIndexState snap e.path = some h) :
    scanStep env snap (r, l) e = (r, l ++ [e.path]) := by
  simp [scanStep, hdir, hsup, hh, hgs]

theorem scanStep_walked_changed (env : Env) (snap : Store) (r : Run)
    (l : List String) (e : FileRun) {h oldH : String} (hdir : e.isDir = false)
    (hsup : isSupportedFile e.path = true) (hh : e.hashResult = some h)
    (hgs : getCurrentIndexState snap e.path = some oldH) (hne : oldH ≠ h)
    (hdel : env.deleteOk e.path = true) :
    scanStep env snap (r, l) e =
      ((processAndEmbedFile (doDelete r e.path) e.path h e.readRes).1,
        l ++ [e.path]) := by
  simp [scanStep, hdir, hsup, hh, hgs, hne, hdel]

theorem scanStep_walked_delFail (env : Env) (snap : Store) (r : Run)
    (l : List String) (e : FileRun) {h oldH : String} (hdir : e.isDir = false)
    (hsup : isSupportedFile e.path = true) (hh : e.hashResult = some h)
    (hgs : getCurrentIndexState snap e.path = some oldH) (hne : oldH ≠ h)
    (hdel : env.deleteOk e.path = false) :
    scanStep env snap (r, l) e = (r, l ++ [e.path]) := by
  simp [scanStep, hdir, hsup, hh, hgs, hne, hdel]

theorem scanStep_walked_new (env : Env) (snap : Store) (r : Run)
    (l : List String) (e : FileRun) {h : String} (hdir : e.isDir = false)
    (hsup : isSupportedFile e.path = true) (hh : e.hashResult = some h)
    (hgs : getCurrentIndexState snap e.path = none) :
    scanStep env snap (r, l) e =
      ((processAndEmbedFile r e.path h e.readRes).1, l ++ [e.path]) := by
  simp [scanStep, hdir, hsup, hh, hgs]

theorem scanStep_locals (env : Env) (snap : Store) (r : Run) (l : List String)
    (e : FileRun) :
    (scanStep env snap (r, l) e).2 =
      if !e.isDir && isSupportedFile e.path then l ++ [e.path] else l := by
  by_cases hdir : e.isDir
  · rw [scanStep_skip env snap r l e (Or.inl hdir)]
    simp [hdir]
  · have hdir' : e.isDir = false := by simpa using hdir
    by_cases hsup : isSupportedFile e.path
    · rw [if_pos (by simp [hdir', hsup])]
      rcases hh : e.hashResult with _ | h
      · rw [scanStep_walked_hashNone env snap r l e hdir' hsup hh]
      · rcases hgs : getCurrentIndexState snap e.path with _ | oldH
        · rw [scanStep_walked_new env snap r l e hdir' hsup hh hgs]
        · by_cases hold : oldH = h
          · subst hold
            rw [scanStep_walked_unchanged env snap r l e hdir' hsup hh hgs]
          · by_cases hdel : env.deleteOk e.path
            · rw [scanStep_walked_changed env snap r l e hdir' hsup hh hgs hold hdel]
            · rw [scanStep_walked_delFail env snap r l e hdir' hsup hh hgs hold
                (by simpa using hdel)]
    · rw [scanStep_skip env snap r l e (Or.inr (by simpa using hsup))]
      simp [hsup]

theorem docsFor_scanStep_ne (env : Env) (snap : Store) (r : Run) (l : List String)
    (e : FileRun) {p : String} (hne : p ≠ e.path) :
    docsFor ((scanStep env snap (r, l) e).1).store p = docsFor r.store p := by
  by_cases hdir : e.isDir
  · rw [scanStep_skip env snap r l e (Or.inl hdir)]
  · have hdir' : e.isDir = false := by simpa using hdir
    by_cases hsup : isSupportedFile e.path
    · rcases hh : e.hashResult with _ | h
      · rw [scanStep_walked_hashNone env snap r l e hdir' hsup hh]
      · rcases hgs : getCurrentIndexState snap e.path with _ | oldH
        · rw [scanStep_walked_new env snap r l e hdir' hsup hh hgs]
          exact docsFor_processAndEmbedFile_ne hne r h e.readRes
        · by_cases hold : oldH = h
          · subst hold
            rw [scanStep_walked_unchanged env snap r l e hdir' hsup hh hgs]
          · by_cases hdel : env.deleteOk e.path
            · rw [scanStep_walked_changed env snap r l e hdir' hsup hh hgs hold hdel]
              rw [docsFor_processAndEmbedFile_ne hne (doDelete r e.path) h e.readRes]
              show docsFor (deleteDocumentsByFilepath r.store e.path) p = _
              rw [docsFor_delete, if_neg hne]
            · rw [scanStep_walked_delFail env snap r l e hdir' hsup hh hgs hold
                (by simpa using hdel)]
    · rw [scanStep_skip env snap r l e (Or.inr (by simpa using hsup))]

theorem mem_scanStep_none (env : Env) (snap : Store) (r : Run) (l : List String)
    (e : FileRun) {d : Doc} (hd : d ∈ r.store) (hsf : d.meta.source_file = none) :
    d ∈ ((scanStep env snap (r, l) e).1).store := by
  by_cases hdir : e.isDir
  · rw [scanStep_skip env snap r l e (Or.inl hdir)]
    exact hd
  · have hdir' : e.isDir = false := by simpa using hdir
    by_cases hsup : isSupportedFile e.path
    · rcases hh : e.hashResult with _ | h
      · rw [scanStep_walked_hashNone env snap r l e hdir' hsup hh]
        exact hd
      · rcases hgs : getCurrentIndexState snap e.path with _ | oldH
        · rw [scanStep_walked_new env snap r l e hdir' hsup hh hgs]
          exact mem_processAndEmbedFile hd e.path h e.readRes
        · by_cases hold : oldH = h
          · subst hold
            rw [scanStep_walked_unchanged env snap r l e hdir' hsup hh hgs]
            exact hd
          · by_cases hdel : env.deleteOk e.path
            · rw [scanStep_walked_changed env snap r l e hdir' hsup hh hgs hold hdel]
              exact mem_processAndEmbedFile (mem_delete_of_none hd hsf) e.path h e.readRes
            · rw [scanStep_walked_delFail env snap r l e hdir' hsup hh hgs hold
                (by simpa using hdel)]
              exact hd
    · rw [scanStep_skip env snap r l e (Or.inr (by simpa using hsup))]
      exact hd

theorem scanStep_trace (env : Env) (snap : Store) (r : Run) (l : List String)
    (e : FileRun) :
    ∃ dls ads, ((scanStep env snap (r, l) e).1).trace = r.trace ++ (dls ++ ads) ∧
      (∀ o ∈ dls, o = StoreOp.del e.path) ∧
      (∀ o ∈ ads, ∃ h j tx, o = StoreOp.add e.path h j tx) := by
  by_cases hdir : e.isDir
  · rw [scanStep_skip env snap r l e (Or.inl hdir)]
    exact ⟨[], [], by simp, by simp, by simp⟩
  · have hdir' : e.isDir = false := by simpa using hdir
    by_cases hsup : isSupportedFile e.path
    · rcases hh : e.hashResult with _ | h
      · rw [scanStep_walked_hashNone env snap r l e hdir' hsup hh]
        exact ⟨[], [], by simp, by simp, by simp⟩
      · rcases hgs : getCurrentIndexState snap e.path with _ | oldH
        · rw [scanStep_walked_new env snap r l e hdir' hsup hh hgs]
          obtain ⟨t, a, _, h2, _, h4⟩ := processAndEmbedFile_shape r e.path h e.readRes
          exact ⟨[], a, by simpa using h2, by simp,
            fun o ho => by obtain ⟨j, tx, hj⟩ := h4 o ho; exact ⟨h, j, tx, hj⟩⟩
        · by_cases hold : oldH = h
          · subst hold
            rw [scanStep_walked_unchanged env snap r l e hdir' hsup hh hgs]
            exact ⟨[], [], by simp, by simp, by simp⟩
          · by_cases hdel : env.deleteOk e.path
            · rw [scanStep_walked_changed env snap r l e hdir' hsup hh hgs hold hdel]
              obtain ⟨t, a, _, h2, _, h4⟩ :=
                processAndEmbedFile_shape (doDelete r e.path) e.path h e.readRes
              refine ⟨[StoreOp.del e.path], a, ?_, by simp, ?_⟩
              · rw [h2]
                show (r.trace ++ [StoreOp.del e.path]) ++ a = _
                simp
              · exact fun o ho => by obtain ⟨j, tx, hj⟩ := h4 o ho; exact ⟨h, j, tx, hj⟩
            · rw [scanStep_walked_delFail env snap r l e hdir' hsup hh hgs hold
                (by simpa using hdel)]
              exact ⟨[], [], by simp, by simp, by simp⟩
    · rw [scanStep_skip env snap r l e (Or.inr (by simpa using hsup))]
      exact ⟨[], [], by simp, by simp, by simp⟩

theorem docsFor_scanStep_self (snap : Store) (r : Run) (l : List String)
    (e : FileRun) {h : String} {cs : List ChunkRun}
    (hdir : e.isDir = false) (hsup : isSupportedFile e.path = true)
    (hh : e.hashResult = some h) (hres : e.readRes = some cs)
    (hcs : ∀ c ∈ cs, c.embedOk = true ∧ c.addOk = true) :
    docsFor ((scanStep allOk snap (r, l) e).1).store e.path =
      match getCurrentIndexState snap e.path with
      | some oldH =>
        if oldH = h then docsFor r.store e.path else mkChunkDocs e.path h 0 cs
      | none => docsFor r.store e.path ++ mkChunkDocs e.path h 0 cs := by
  rcases hgs : getCurrentIndexState snap e.path with _ | oldH
  · rw [scanStep_walked_new allOk snap r l e hdir hsup hh hgs, hres,
      processAndEmbedFile_allOk r e.path h cs hcs]
    show docsFor (r.store ++ mkChunkDocs e.path h 0 cs) e.path = _
    rw [docsFor_append, docsFor_mkChunkDocs, if_pos rfl]
  · by_cases hold : oldH = h
    · subst hold
      rw [scanStep_walked_unchanged allOk snap r l e hdir hsup hh hgs]
      simp
    · rw [scanStep_walked_changed allOk snap r l e hdir hsup hh hgs hold rfl, hres,
        processAndEmbedFile_allOk (doDelete r e.path) e.path h cs hcs]
      show docsFor ((doDelete r e.path).store ++ mkChunkDocs e.path h 0 cs) e.path = _
      rw [docsFor_append, docsFor_mkChunkDocs, if_pos rfl]
      show docsFor (deleteDocumentsByFilepath r.store e.path) e.path ++ _ = _
      rw [docsFor_delete, if_pos rfl, List.nil_append]
      simp [hold]

/-! ### Lemmas about the walk fold -/

theorem walkedPaths_nil : walkedPaths [] = [] := rfl

theorem walkedPaths_cons_walked {e : FileRun} (hdir : e.isDir = false)
    (hsup : isSupportedFile e.path = true) (rest : List FileRun) :
    walkedPaths (e :: rest) = e.path :: walkedPaths rest := by
  simp [walkedPaths, List.filter_cons, hdir, hsup]

theorem walkedPaths_cons_skip {e : FileRun}
    (he : e.isDir = true ∨ isSupportedFile e.path = false) (rest : List FileRun) :
    walkedPaths (e :: rest) = walkedPaths rest := by
  rcases he with h | h <;> simp [walkedPaths, List.filter_cons, h]

theorem mem_walkedPaths {e : FileRun} {files : List FileRun} (he : e ∈ files)
    (hdir : e.isDir = false) (hsup : isSupportedFile e.path = true) :
    e.path ∈ walkedPaths files := by
  simp only [walkedPaths, List.mem_map, List.mem_filter]
  exact ⟨e, ⟨he, by simp [hdir, hsup]⟩, rfl⟩

theorem exists_of_mem_walkedPaths {p : String} {files : List FileRun}
    (hp : p ∈ walkedPaths files) :
    ∃ e ∈ files, e.path = p ∧ e.isDir = false ∧ isSupportedFile e.path = true := by
  simp only [walkedPaths, List.mem_map, List.mem_filter] at hp
  obtain ⟨e, ⟨he, hcond⟩, hpath⟩ := hp
  refine ⟨e, he, hpath, ?_, ?_⟩ <;> simp at hcond <;> simp [hcond]

theorem foldl_scanStep_cons (env : Env) (snap : Store) (e : FileRun)
    (rest : List FileRun) (acc : Run × List String) :
    (e :: rest).foldl (scanStep env snap) acc =
      rest.foldl (scanStep env snap)
        ((scanStep env snap acc e).1, (scanStep env snap acc e).2) := by
  rw [List.foldl_cons]

theorem foldl_scanStep_locals (env : Env) (snap : Store) (files : List FileRun)
    (r : Run) (l : List String) :
    (files.foldl (scanStep env snap) (r, l)).2 = l ++ walkedPaths files := by
  induction files generalizing r l with
  | nil => simp [walkedPaths]
  | cons e rest ih =>
    rw [foldl_scanStep_cons, ih, scanStep_locals]
    by_cases hdir : e.isDir
    · rw [walkedPaths_cons_skip (Or.inl hdir)]
      simp [hdir]
    · have hdir' : e.isDir = false := by simpa using hdir
      by_cases hsup : isSupportedFile e.path
      · rw [walkedPaths_cons_walked hdir' hsup]
        simp [hdir', hsup]
      · rw [walkedPaths_cons_skip (Or.inr (by simpa using hsup))]
        simp [hsup]

theorem docsFor_foldl_not_walked (env : Env) (snap : Store) (files : List FileRun)
    (r : Run) (l : List String) {p : String} (hp : p ∉ walkedPaths files) :
    docsFor ((files.foldl (scanStep env snap) (r, l)).1).store p =
      docsFor r.store p := by
  induction files generalizing r l with
  | nil => rfl
  | cons e rest ih =>
    rw [foldl_scanStep_cons]
    by_cases hdir : e.isDir
    · rw [scanStep_skip env snap r l e (Or.inl hdir)]
      rw [walkedPaths_cons_skip (Or.inl hdir)] at hp
      exact ih r l hp
    · have hdir' : e.isDir = false := by simpa using hdir
      by_cases hsup : isSupportedFile e.path
      · rw [walkedPaths_cons_walked hdir' hsup] at hp
        have hne : p ≠ e.path := fun hc => hp (hc ▸ List.mem_cons_self _ _)
        rw [ih _ _ (fun hc => hp (List.mem_cons_of_mem _ hc))]
        exact docsFor_scanStep_ne env snap r l e hne
      · rw [scanStep_skip env snap r l e (Or.inr (by simpa using hsup))]
        rw [walkedPaths_cons_skip (Or.inr (by simpa using hsup))] at hp
        exact ih r l hp

theorem docsFor_foldl_walked (snap : Store) (files : List FileRun) (r : Run)
    (l : List String) (e : FileRun) {h : String} {cs : List ChunkRun}
    (he : e ∈ files) (hdir : e.isDir = false)
    (hsup : isSupportedFile e.path = true) (hh : e.hashResult = some h)
    (hres : e.readRes = some cs)
    (hcs : ∀ c ∈ cs, c.embedOk = true ∧ c.addOk = true)
    (hnodup : (walkedPaths files).Nodup) :
    docsFor ((files.foldl (scanStep allOk snap) (r, l)).1).store e.path =
      match getCurrentIndexState snap e.path with
      | some oldH =>
        if oldH = h then docsFor r.store e.path else mkChunkDocs e.path h 0 cs
      | none => docsFor r.store e.path ++ mkChunkDocs e.path h 0 cs := by
  induction files generalizing r l with
  | nil => cases he
  | cons e0 rest ih =>
    rcases List.mem_cons.mp he with rfl | hmem
    · rw [foldl_scanStep_cons]
      rw [walkedPaths_cons_walked hdir hsup] at hnodup
      have hpath : e.path ∉ walkedPaths rest := (List.nodup_cons.mp hnodup).1
      rw [docsFor_foldl_not_walked allOk snap rest _ _ hpath]
      exact docsFor_scanStep_self snap r l e hdir hsup hh hres hcs
    · rw [foldl_scanStep_cons]
      by_cases hd0 : e0.isDir
      · rw [scanStep_skip allOk snap r l e0 (Or.inl hd0)]
        rw [walkedPaths_cons_skip (Or.inl hd0)] at hnodup
        exact ih r l hmem hnodup
      · have hd0' : e0.isDir = false := by simpa using hd0
        by_cases hs0 : isSupportedFile e0.path
        · rw [walkedPaths_cons_walked hd0' hs0] at hnodup
          obtain ⟨hnotin, hnd⟩ := List.nodup_cons.mp hnodup
          have hmem_path : e.path ∈ walkedPaths rest :=
            mem_walkedPaths hmem hdir hsup
          have hne : e.path ≠ e0.path := fun hc => hnotin (hc ▸ hmem_path)
          rw [ih _ _ hmem hnd, docsFor_scanStep_ne allOk snap r l e0 hne]
        · rw [scanStep_skip allOk snap r l e0 (Or.inr (by simpa using hs0))]
          rw [walkedPaths_cons_skip (Or.inr (by simpa using hs0))] at hnodup
          exact ih r l hmem hnodup

theorem foldl_scanStep_id (env : Env) (snap : Store) (files : List FileRun)
    (r : Run) (l : List String)
    (hids : ∀ e ∈ files, e.isDir = false → isSupportedFile e.path = true →
      ∃ h, e.hashResult = some h ∧
        (getCurrentIndexState snap e.path = some h ∨
          (getCurrentIndexState snap e.path = none ∧ e.readRes = some []))) :
    (files.foldl (scanStep env snap) (r, l)).1 = r := by
  induction files generalizing r l with
  | nil => rfl
  | cons e rest ih =>
    rw [foldl_scanStep_cons]
    have hrest : ∀ e2 ∈ rest, e2.isDir = false → isSupportedFile e2.path = true →
        ∃ h, e2.hashResult = some h ∧
          (getCurrentIndexState snap e2.path = some h ∨
            (getCurrentIndexState snap e2.path = none ∧ e2.readRes = some [])) :=
      fun e2 he2 => hids e2 (List.mem_cons_of_mem _ he2)
    by_cases hdir : e.isDir
    · rw [scanStep_skip env snap r l e (Or.inl hdir)]
      exact ih r l hrest
    · have hdir' : e.isDir = false := by simpa using hdir
      by_cases hsup : isSupportedFile e.path
      · obtain ⟨h, hh, hgs | ⟨hgs, hread⟩⟩ := hids e (List.mem_cons_self _ _) hdir' hsup
        · rw [scanStep_walked_unchanged env snap r l e hdir' hsup hh hgs]
          exact ih r (l ++ [e.path]) hrest
        · rw [scanStep_walked_new env snap r l e hdir' hsup hh hgs, hread]
          exact ih r (l ++ [e.path]) hrest
      · rw [scanStep_skip env snap r l e (Or.inr (by simpa using hsup))]
        exact ih r l hrest

theorem mem_foldl_scanStep_none (env : Env) (snap : Store) (files : List FileRun)
    (r : Run) (l : List String) {d : Doc} (hd : d ∈ r.store)
    (hsf : d.meta.source_file = none) :
    d ∈ ((files.foldl (scanStep env snap) (r, l)).1).store := by
  induction files generalizing r l with
  | nil => exact hd
  | cons e rest ih =>
    rw [foldl_scanStep_cons]
    exact ih _ _ (mem_scanStep_none env snap r l e hd hsf)

/-! ### Lemmas about the deletion phase -/

theorem deletePhase_cons (env : Env) (q : String) (rest l : List String) (r : Run) :
    deletePhase env (q :: rest) l r =
      deletePhase env rest l
        (if q ∈ l then r else if env.deleteOk q then doDelete r q else r) := by
  simp only [deletePhase, List.foldl_cons]

theorem deletePhase_docsFor_kept (env : Env) (sp l : List String) (r : Run)
    {p : String} (hp : p ∉ sp ∨ p ∈ l) :
    docsFor (deletePhase env sp l r).store p = docsFor r.store p := by
  induction sp generalizing r with
  | nil => rfl
  | cons q rest ih =>
    rw [deletePhase_cons]
    have hrest : p ∉ rest ∨ p ∈ l := by
      rcases hp with h | h
      · exact Or.inl fun hc => h (List.mem_cons_of_mem _ hc)
      · exact Or.inr h
    by_cases hql : q ∈ l
    · rw [if_pos hql]
      exact ih r hrest
    · rw [if_neg hql]
      by_cases hdel : env.deleteOk q
      · rw [if_pos hdel, ih _ hrest]
        show docsFor (deleteDocumentsByFilepath r.store q) p = _
        rw [docsFor_delete]
        have hne : ¬p = q := by
          intro hc
          subst hc
          rcases hp with h | h
          · exact h (List.mem_cons_self _ _)
          · exact hql h
        rw [if_neg hne]
      · rw [if_neg hdel]
        exact ih r hrest

theorem deletePhase_docsFor_empty (env : Env) (sp l : List String) (r : Run)
    {p : String} (hp : docsFor r.store p = []) :
    docsFor (deletePhase env sp l r).store p = [] := by
  induction sp generalizing r with
  | nil => exact hp
  | cons q rest ih =>
    rw [deletePhase_cons]
    by_cases hql : q ∈ l
    · rw [if_pos hql]
      exact ih r hp
    · rw [if_neg hql]
      by_cases hdel : env.deleteOk q
      · rw [if_pos hdel]
        refine ih _ ?_
        show docsFor (deleteDocumentsByFilepath r.store q) p = []
        rw [docsFor_delete]
        split
        · rfl
        · exact hp
      · rw [if_neg hdel]
        exact ih r hp

theorem deletePhase_docsFor_del (env : Env) (sp l : List String) (r : Run)
    {p : String} (hp : p ∈ sp) (hl : p ∉ l) (hdel : env.deleteOk p = true) :
    docsFor (deletePhase env sp l r).store p = [] := by
  induction sp generalizing r with
  | nil => cases hp
  | cons q rest ih =>
    rw [deletePhase_cons]
    by_cases hqp : q = p
    · subst hqp
      rw [if_neg hl, if_pos hdel]
      refine deletePhase_docsFor_empty env rest l _ ?_
      show docsFor (deleteDocumentsByFilepath r.store q) q = []
      rw [docsFor_delete, if_pos rfl]
    · have hprest : p ∈ rest := by
        rcases List.mem_cons.mp hp with hc | hc
        · exact absurd hc.symm hqp
        · exact hc
      by_cases hql : q ∈ l
      · rw [if_pos hql]
        exact ih _ hprest
      · rw [if_neg hql]
        by_cases hdq : env.deleteOk q
        · rw [if_pos hdq]
          exact ih _ hprest
        · rw [if_neg hdq]
          exact ih _ hprest

theorem deletePhase_trace (env : Env) (sp l : List String) (r : Run) :
    ∃ t, (deletePhase env sp l r).trace = r.trace ++ t ∧
      ∀ o ∈ t, ∃ q, o = StoreOp.del q ∧ q ∉ l := by
  induction sp generalizing r with
  | nil => exact ⟨[], by simp [deletePhase], by simp⟩
  | cons q rest ih =>
    rw [deletePhase_cons]
    by_cases hql : q ∈ l
    · rw [if_pos hql]
      exact ih r
    · rw [if_neg hql]
      by_cases hdel : env.deleteOk q
      · rw [if_pos hdel]
        obtain ⟨t, ht, hall⟩ := ih (doDelete r q)
        refine ⟨StoreOp.del q :: t, ?_, ?_⟩
        · rw [ht]
          show (r.trace ++ [StoreOp.del q]) ++ t = _
          simp
        · intro o ho
          rcases List.mem_cons.mp ho with rfl | hmem
          · exact ⟨q, rfl, hql⟩
          · exact hall o hmem
      · rw [if_neg hdel]
        exact ih r

theorem deletePhase_id (env : Env) (sp l : List String) (r : Run)
    (h : ∀ q ∈ sp, q ∈ l) : deletePhase env sp l r = r := by
  induction sp generalizing r with
  | nil => rfl
  | cons q rest ih =>
    rw [deletePhase_cons, if_pos (h q (List.mem_cons_self _ _))]
    exact ih r (fun q2 hq2 => h q2 (List.mem_cons_of_mem _ hq2))

theorem mem_deletePhase_none (env : Env) (sp l : List String) (r : Run)
    {d : Doc} (hd : d ∈ r.store) (hsf : d.meta.source_file = none) :
    d ∈ (deletePhase env sp l r).store := by
  induction sp generalizing r with
  | nil => exact hd
  | cons q rest ih =>
    rw [deletePhase_cons]
    by_cases hql : q ∈ l
    · rw [if_pos hql]
      exact ih _ hd
    · rw [if_neg hql]
      by_cases hdel : env.deleteOk q
      · rw [if_pos hdel]
        exact ih _ (mem_delete_of_none hd hsf)
      · rw [if_neg hdel]
        exact ih _ hd

/-! ### Characterization of one full scan -/

theorem scan_unfold (env : Env) (store : Store) (inp : ScanInput)
    (hget : inp.getOk = true) :
    scanAndIndexDirectory env store inp =
      deletePhase env (snapshotPaths store)
        ((inp.files.foldl (scanStep env store) ({ store := store, trace := [] }, [])).2)
        ((inp.files.foldl (scanStep env store) ({ store := store, trace := [] }, [])).1) := by
  simp [scanAndIndexDirectory, hget]

theorem scan_docsFor_deleted (env : Env) (store : Store) (inp : ScanInput)
    (p : String) (hget : inp.getOk = true) (hp : p ∈ snapshotPaths store)
    (hw : p ∉ walkedPaths inp.files) (hdel : env.deleteOk p = true) :
    docsFor (scanAndIndexDirectory env store inp).store p = [] := by
  rw [scan_unfold env store inp hget, foldl_scanStep_locals]
  exact deletePhase_docsFor_del env _ _ _ hp (by simpa using hw) hdel

theorem scan_docsFor_untouched (env : Env) (store : Store) (inp : ScanInput)
    (p : String) (hget : inp.getOk = true) (hp : p ∉ snapshotPaths store)
    (hw : p ∉ walkedPaths inp.files) :
    docsFor (scanAndIndexDirectory env store inp).store p = docsFor store p := by
  rw [scan_unfold env store inp hget,
    deletePhase_docsFor_kept env _ _ _ (Or.inl hp)]
  exact docsFor_foldl_not_walked env store inp.files _ _ hw

theorem scan_docsFor_not_walked_nil (store : Store) (inp : ScanInput)
    (p : String) (hwf : WellFormed store) (hget : inp.getOk = true)
    (hw : p ∉ walkedPaths inp.files) :
    docsFor (scanAndIndexDirectory allOk store inp).store p = [] := by
  by_cases hsnap : p ∈ snapshotPaths store
  · exact scan_docsFor_deleted allOk store inp p hget hsnap hw rfl
  · have hnil : docsFor store p = [] := by
      rw [docsFor_eq_nil_iff]
      intro d hd hsf
      have hfh := hwf d hd (by simp [hsf])
      rcases hfh' : d.meta.file_hash with _ | h2
      · rw [hfh'] at hfh
        cases hfh
      · exact hsnap (mem_snapshotPaths hd hsf hfh')
    rw [scan_docsFor_untouched allOk store inp p hget hsnap hw]
    exact hnil

theorem scan_docsFor_walked (store : Store) (inp : ScanInput) (e : FileRun)
    {h : String} {cs : List ChunkRun} (hget : inp.getOk = true)
    (he : e ∈ inp.files) (hdir : e.isDir = false)
    (hsup : isSupportedFile e.path = true) (hh : e.hashResult = some h)
    (hres : e.readRes = some cs)
    (hcs : ∀ c ∈ cs, c.embedOk = true ∧ c.addOk = true)
    (hnodup : (walkedPaths inp.files).Nodup) :
    docsFor (scanAndIndexDirectory allOk store inp).store e.path =
      match getCurrentIndexState store e.path with
      | some oldH =>
        if oldH = h then docsFor store e.path else mkChunkDocs e.path h 0 cs
      | none => docsFor store e.path ++ mkChunkDocs e.path h 0 cs := by
  rw [scan_unfold allOk store inp hget,
    deletePhase_docsFor_kept allOk _ _ _
      (Or.inr (by
        rw [foldl_scanStep_locals]
        simpa using mem_walkedPaths he hdir hsup))]
  exact docsFor_foldl_walked store inp.files _ _ e he hdir hsup hh hres hcs hnodup

theorem scan_docsFor_walked_unchanged (store : Store) (inp : ScanInput)
    (e : FileRun) {h : String} {cs : List ChunkRun} (hget : inp.getOk = true)
    (he : e ∈ inp.files) (hdir : e.isDir = false)
    (hsup : isSupportedFile e.path = true) (hh : e.hashResult = some h)
    (hres : e.readRes = some cs)
    (hcs : ∀ c ∈ cs, c.embedOk = true ∧ c.addOk = true)
    (hnodup : (walkedPaths inp.files).Nodup)
    (hgs : getCurrentIndexState store e.path = some h) :
    docsFor (scanAndIndexDirectory allOk store inp).store e.path =
      docsFor store e.path := by
  rw [scan_docsFor_walked store inp e hget he hdir hsup hh hres hcs hnodup, hgs]
  simp

theorem scan_docsFor_walked_changed (store : Store) (inp : ScanInput)
    (e : FileRun) {h oldH : String} {cs : List ChunkRun} (hget : inp.getOk = true)
    (he : e ∈ inp.files) (hdir : e.isDir = false)
    (hsup : isSupportedFile e.path = true) (hh : e.hashResult = some h)
    (hres : e.readRes = some cs)
    (hcs : ∀ c ∈ cs, c.embedOk = true ∧ c.addOk = true)
    (hnodup : (walkedPaths inp.files).Nodup)
    (hgs : getCurrentIndexState store e.path = some oldH) (hne : oldH ≠ h) :
    docsFor (scanAndIndexDirectory allOk store inp).store e.path =
      mkChunkDocs e.path h 0 cs := by
  rw [scan_docsFor_walked store inp e hget he hdir hsup hh hres hcs hnodup, hgs]
  simp [hne]

theorem scan_docsFor_walked_new (store : Store) (inp : ScanInput)
    (e : FileRun) {h : String} {cs : List ChunkRun} (hget : inp.getOk = true)
    (he : e ∈ inp.files) (hdir : e.isDir = false)
    (hsup : isSupportedFile e.path = true) (hh : e.hashResult = some h)
    (hres : e.readRes = some cs)
    (hcs : ∀ c ∈ cs, c.embedOk = true ∧ c.addOk = true)
    (hnodup : (walkedPaths inp.files).Nodup)
    (hgs : getCurrentIndexState store e.path = none) :
    docsFor (scanAndIndexDirectory allOk store inp).store e.path =
      docsFor store e.path ++ mkChunkDocs e.path h 0 cs := by
  rw [scan_docsFor_walked store inp e hget he hdir hsup hh hres hcs hnodup, hgs]

theorem goodFile_elim {e : FileRun} (hg : goodFile e = true)
    (hdir : e.isDir = false) (hsup : isSupportedFile e.path = true) :
    ∃ h cs, e.hashResult = some h ∧ e.readRes = some cs ∧
      ∀ c ∈ cs, c.embedOk = true ∧ c.addOk = true := by
  rcases hh : e.hashResult with _ | h
  · simp [goodFile, hdir, hsup, hh] at hg
  · rcases hres : e.readRes with _ | cs
    · simp [goodFile, hdir, hsup, hh, hres] at hg
    · simp [goodFile, hdir, hsup, hh, hres] at hg
      refine ⟨h, cs, rfl, rfl, fun c hc => ?_⟩
      have := hg c hc
      exact ⟨this.1, this.2⟩

theorem mkChunkDocs_ne_nil {q h : String} {i : Nat} {cs : List ChunkRun}
    (hcs : cs ≠ []) : mkChunkDocs q h i cs ≠ [] := by
  rcases cs with _ | ⟨c, rest⟩
  · cases hcs rfl
  · simp [mkChunkDocs]

theorem mkChunkDocs_filterMap_head {q h : String} {i : Nat} {cs : List ChunkRun}
    (hcs : cs ≠ []) :
    ((mkChunkDocs q h i cs).filterMap (fun d => d.meta.file_hash)).head? = some h := by
  rcases cs with _ | ⟨c, rest⟩
  · cases hcs rfl
  · simp [mkChunkDocs, mkChunkDoc, List.filterMap_cons]

theorem docsFor_ne_nil_of_gcis {store : Store} {p x : String}
    (hgs : getCurrentIndexState store p = some x) : docsFor store p ≠ [] := by
  intro hnil
  rw [getCurrentIndexState_eq_docsFor, hnil] at hgs
  simp at hgs

theorem scan_gcis_walked (store : Store) (inp : ScanInput) (e : FileRun)
    {h : String} {cs : List ChunkRun} (hwf : WellFormed store)
    (hget : inp.getOk = true) (he : e ∈ inp.files) (hdir : e.isDir = false)
    (hsup : isSupportedFile e.path = true) (hh : e.hashResult = some h)
    (hres : e.readRes = some cs) (hcsne : cs ≠ [])
    (hcs : ∀ c ∈ cs, c.embedOk = true ∧ c.addOk = true)
    (hnodup : (walkedPaths inp.files).Nodup) :
    getCurrentIndexState (scanAndIndexDirectory allOk store inp).store e.path =
      some h := by
  rcases hgs : getCurrentIndexState store e.path with _ | oldH
  · rw [getCurrentIndexState_eq_docsFor,
      scan_docsFor_walked_new store inp e hget he hdir hsup hh hres hcs hnodup hgs,
      getCurrentIndexState_none_docsFor hwf hgs, List.nil_append]
    exact mkChunkDocs_filterMap_head hcsne
  · by_cases hold : oldH = h
    · subst hold
      rw [getCurrentIndexState_eq_docsFor,
        scan_docsFor_walked_unchanged store inp e hget he hdir hsup hh hres hcs
          hnodup hgs,
        ← getCurrentIndexState_eq_docsFor]
      exact hgs
    · rw [getCurrentIndexState_eq_docsFor,
        scan_docsFor_walked_changed store inp e hget he hdir hsup hh hres hcs
          hnodup hgs hold]
      exact mkChunkDocs_filterMap_head hcsne

theorem scan_gcis_walked_general (store : Store) (inp : ScanInput)
    (e : FileRun) {h : String} {cs : List ChunkRun} (hwf : WellFormed store)
    (hget : inp.getOk = true) (he : e ∈ inp.files) (hdir : e.isDir = false)
    (hsup : isSupportedFile e.path = true) (hh : e.hashResult = some h)
    (hres : e.readRes = some cs)
    (hcs : ∀ c ∈ cs, c.embedOk = true ∧ c.addOk = true)
    (hnodup : (walkedPaths inp.files).Nodup) :
    getCurrentIndexState (scanAndIndexDirectory allOk store inp).store e.path =
        some h ∨
      (getCurrentIndexState (scanAndIndexDirectory allOk store inp).store e.path =
          none ∧ cs = []) := by
  by_cases hcsne : cs = []
  · subst hcsne
    rcases hgs : getCurrentIndexState store e.path with _ | oldH
    · right
      refine ⟨?_, rfl⟩
      rw [getCurrentIndexState_eq_docsFor,
        scan_docsFor_walked_new store inp e hget he hdir hsup hh hres hcs
          hnodup hgs,
        getCurrentIndexState_none_docsFor hwf hgs]
      rfl
    · by_cases hold : oldH = h
      · subst hold
        left
        rw [getCurrentIndexState_eq_docsFor,
          scan_docsFor_walked_unchanged store inp e hget he hdir hsup hh hres
            hcs hnodup hgs,
          ← getCurrentIndexState_eq_docsFor]
        exact hgs
      · right
        refine ⟨?_, rfl⟩
        rw [getCurrentIndexState_eq_docsFor,
          scan_docsFor_walked_changed store inp e hget he hdir hsup hh hres hcs
            hnodup hgs hold]
        rfl
  · exact Or.inl
      (scan_gcis_walked store inp e hwf hget he hdir hsup hh hres hcsne hcs hnodup)

theorem scan_snapshotPaths_sub (store : Store) (inp : ScanInput)
    (hwf : WellFormed store) (hget : inp.getOk = true) {q : String}
    (hq : q ∈ snapshotPaths (scanAndIndexDirectory allOk store inp).store) :
    q ∈ walkedPaths inp.files := by
  by_contra hw
  obtain ⟨d, hd, hsf, hfh⟩ := snapshotPaths_sub hq
  have hmem : d ∈ docsFor (scanAndIndexDirectory allOk store inp).store q :=
    mem_docsFor.mpr ⟨hd, hsf⟩
  rw [scan_docsFor_not_walked_nil store inp q hwf hget hw] at hmem
  cases hmem

theorem scan_id (env : Env) (store : Store) (inp : ScanInput)
    (hget : inp.getOk = true)
    (hfiles : ∀ e ∈ inp.files, e.isDir = false → isSupportedFile e.path = true →
      ∃ h, e.hashResult = some h ∧
        (getCurrentIndexState store e.path = some h ∨
          (getCurrentIndexState store e.path = none ∧ e.readRes = some [])))
    (hsnap : ∀ q ∈ snapshotPaths store, q ∈ walkedPaths inp.files) :
    scanAndIndexDirectory env store inp = { store := store, trace := [] } := by
  rw [scan_unfold env store inp hget,
    foldl_scanStep_id env store inp.files _ _ hfiles, foldl_scanStep_locals]
  exact deletePhase_id env _ _ _ (by simpa using hsnap)

theorem scan_mem_none (env : Env) (store : Store) (inp : ScanInput)
    {d : Doc} (hd : d ∈ store) (hsf : d.meta.source_file = none) :
    d ∈ (scanAndIndexDirectory env store inp).store := by
  by_cases hget : inp.getOk
  · rw [scan_unfold env store inp hget]
    refine mem_deletePhase_none env _ _ _ ?_ hsf
    exact mem_foldl_scanStep_none env store inp.files _ _ hd hsf
  · have hg : inp.getOk = false := by simpa using hget
    simp only [scanAndIndexDirectory, hg]
    exact hd

/-! ### Trace ordering: deletes of a path happen before its inserts -/

theorem hasAdd_nil (p : String) : hasAdd p [] = false := rfl

theorem hasAdd_append {p : String} (t1 t2 : List StoreOp) :
    hasAdd p (t1 ++ t2) = (hasAdd p t1 || hasAdd p t2) := by
  simp [hasAdd, List.any_append]

theorem noDelAfterAdd_of_no_add {p : String} {t : List StoreOp}
    (h : ∀ o ∈ t, isAddFor p o = false) : noDelAfterAdd p t = true := by
  induction t with
  | nil => rfl
  | cons o rest ih =>
    simp only [noDelAfterAdd]
    rw [if_neg (by rw [h o (List.mem_cons_self _ _)]; simp)]
    exact ih fun o2 ho2 => h o2 (List.mem_cons_of_mem _ ho2)

theorem noDelAfterAdd_of_no_del {p : String} {t : List StoreOp}
    (h : ∀ o ∈ t, isDelFor p o = false) : noDelAfterAdd p t = true := by
  induction t with
  | nil => rfl
  | cons o rest ih =>
    simp only [noDelAfterAdd]
    by_cases ho : isAddFor p o
    · rw [if_pos ho, List.all_eq_true]
      intro o2 ho2
      rw [h o2 (List.mem_cons_of_mem _ ho2)]
      rfl
    · rw [if_neg ho]
      exact ih fun o2 ho2 => h o2 (List.mem_cons_of_mem _ ho2)

theorem noDelAfterAdd_append {p : String} {t1 t2 : List StoreOp}
    (h1 : noDelAfterAdd p t1 = true) (h2 : noDelAfterAdd p t2 = true)
    (h12 : hasAdd p t1 = true → ∀ o ∈ t2, isDelFor p o = false) :
    noDelAfterAdd p (t1 ++ t2) = true := by
  induction t1 with
  | nil => simpa using h2
  | cons o rest ih =>
    simp only [List.cons_append, noDelAfterAdd] at h1 ⊢
    by_cases ho : isAddFor p o
    · rw [if_pos ho] at h1 ⊢
      rw [List.all_eq_true]
      intro o2 ho2
      rcases List.mem_append.mp ho2 with hm | hm
      · exact List.all_eq_true.mp h1 o2 hm
      · rw [h12 (by simp [hasAdd, ho]) o2 hm]
        rfl
    · rw [if_neg ho] at h1 ⊢
      refine ih h1 fun ha => h12 ?_
      have ha2 : rest.any (isAddFor p) = true := ha
      simp [hasAdd, List.any_cons, ha2]

theorem noDelAfterAdd_dels_adds {p path : String} {ds as : List StoreOp}
    (hds : ∀ o ∈ ds, o = StoreOp.del path)
    (has : ∀ o ∈ as, ∃ h j tx, o = StoreOp.add path h j tx) :
    noDelAfterAdd p (ds ++ as) = true := by
  refine noDelAfterAdd_append ?_ ?_ ?_
  · refine noDelAfterAdd_of_no_add fun o ho => ?_
    rw [hds o ho]
    rfl
  · refine noDelAfterAdd_of_no_del fun o ho => ?_
    obtain ⟨h, j, tx, rfl⟩ := has o ho
    rfl
  · intro ha
    exfalso
    rw [hasAdd, List.any_eq_true] at ha
    obtain ⟨o, ho, hadd⟩ := ha
    rw [hds o ho] at hadd
    cases hadd

theorem hasAdd_dels_adds {p path : String} {ds as : List StoreOp}
    (hds : ∀ o ∈ ds, o = StoreOp.del path)
    (has : ∀ o ∈ as, ∃ h j tx, o = StoreOp.add path h j tx)
    (hp : hasAdd p (ds ++ as) = true) : p = path := by
  rw [hasAdd, List.any_eq_true] at hp
  obtain ⟨o, ho, hadd⟩ := hp
  rcases List.mem_append.mp ho with hm | hm
  · rw [hds o hm] at hadd
    cases hadd
  · obtain ⟨h, j, tx, rfl⟩ := has o hm
    simp only [isAddFor] at hadd
    exact (eq_of_beq hadd).symm

theorem foldl_scanStep_trace_inv (env : Env) (snap : Store)
    (files : List FileRun) (r : Run) (l : List String) (p : String)
    (hnodup : (walkedPaths files).Nodup)
    (h1 : noDelAfterAdd p r.trace = true)
    (h2 : hasAdd p r.trace = true → p ∈ l)
    (h3 : ∀ q ∈ walkedPaths files, hasAdd q r.trace = false) :
    noDelAfterAdd p ((files.foldl (scanStep env snap) (r, l)).1).trace = true ∧
      (hasAdd p ((files.foldl (scanStep env snap) (r, l)).1).trace = true →
        p ∈ (files.foldl (scanStep env snap) (r, l)).2) := by
  induction files generalizing r l with
  | nil => exact ⟨h1, h2⟩
  | cons e rest ih =>
    rw [foldl_scanStep_cons]
    by_cases hdir : e.isDir
    · rw [scanStep_skip env snap r l e (Or.inl hdir)]
      rw [walkedPaths_cons_skip (Or.inl hdir)] at hnodup h3
      exact ih r l hnodup h1 h2 h3
    · have hdir' : e.isDir = false := by simpa using hdir
      by_cases hsup : isSupportedFile e.path
      · rw [walkedPaths_cons_walked hdir' hsup] at hnodup h3
        obtain ⟨hnotin, hnd⟩ := List.nodup_cons.mp hnodup
        have hnoadd : hasAdd e.path r.trace = false :=
          h3 e.path (List.mem_cons_self _ _)
        obtain ⟨ds, as, htr, hds, has⟩ := scanStep_trace env snap r l e
        have hloc := scanStep_locals env snap r l e
        rw [if_pos (by simp [hdir', hsup])] at hloc
        have hdelfalse : ∀ o ∈ ds ++ as, hasAdd p r.trace = true →
            isDelFor p o = false := by
          intro o ho ha
          rcases List.mem_append.mp ho with hm | hm
          · rw [hds o hm]
            simp only [isDelFor]
            rw [beq_eq_false_iff_ne]
            intro hc
            rw [hc, ha] at hnoadd
            cases hnoadd
          · obtain ⟨h, j, tx, rfl⟩ := has o hm
            rfl
        have h1' : noDelAfterAdd p ((scanStep env snap (r, l) e).1).trace = true := by
          rw [htr]
          exact noDelAfterAdd_append h1 (noDelAfterAdd_dels_adds hds has)
            fun ha o ho => hdelfalse o ho ha
        have h2' : hasAdd p ((scanStep env snap (r, l) e).1).trace = true →
            p ∈ (scanStep env snap (r, l) e).2 := by
          intro ha
          rw [htr, hasAdd_append] at ha
          rw [hloc]
          rcases Bool.or_eq_true_iff.mp ha with hcase | hcase
          · exact List.mem_append_left _ (h2 hcase)
          · rw [hasAdd_dels_adds hds has hcase]
            exact List.mem_append_right _ (List.mem_singleton_self _)
        have h3' : ∀ q ∈ walkedPaths rest,
            hasAdd q ((scanStep env snap (r, l) e).1).trace = false := by
          intro q hq
          rw [htr, hasAdd_append]
          have hq1 : hasAdd q r.trace = false := h3 q (List.mem_cons_of_mem _ hq)
          have hq2 : hasAdd q (ds ++ as) = false := by
            by_contra hcon
            have hqe : q = e.path :=
              hasAdd_dels_adds hds has (by simpa using hcon)
            exact hnotin (hqe ▸ hq)
          rw [hq1, hq2]
          rfl
        exact ih _ _ hnd h1' h2' h3'
      · rw [scanStep_skip env snap r l e (Or.inr (by simpa using hsup))]
        rw [walkedPaths_cons_skip (Or.inr (by simpa using hsup))] at hnodup h3
        exact ih r l hnodup h1 h2 h3

theorem scan_noDelAfterAdd (env : Env) (store : Store) (inp : ScanInput)
    (p : String) (hnodup : (walkedPaths inp.files).Nodup) :
    noDelAfterAdd p (scanAndIndexDirectory env store inp).trace = true := by
  by_cases hget : inp.getOk
  · rw [scan_unfold env store inp hget]
    obtain ⟨t, ht, hall⟩ := deletePhase_trace env (snapshotPaths store)
      ((inp.files.foldl (scanStep env store) ({ store := store, trace := [] }, [])).2)
      ((inp.files.foldl (scanStep env store) ({ store := store, trace := [] }, [])).1)
    rw [ht]
    obtain ⟨hnda, hadd⟩ := foldl_scanStep_trace_inv env store inp.files
      { store := store, trace := [] } [] p hnodup rfl
      (fun ha => by cases ha) (fun q hq => rfl)
    refine noDelAfterAdd_append hnda ?_ ?_
    · refine noDelAfterAdd_of_no_add fun o ho => ?_
      obtain ⟨q, rfl, hql⟩ := hall o ho
      rfl
    · intro ha o ho
      obtain ⟨q, rfl, hql⟩ := hall o ho
      simp only [isDelFor]
      rw [beq_eq_false_iff_ne]
      intro hc
      subst hc
      exact hql (hadd ha)
  · have hg : inp.getOk = false := by simpa using hget
    simp [scanAndIndexDirectory, hg, noDelAfterAdd]

/-! ### Lemmas about one watcher event -/

theorem handleWatchEvent_unsupported (env : Env) (store : Store) (ev : WatchEvent)
    (hsup : isSupportedFile ev.name = false) :
    handleWatchEvent env store ev = { store := store, trace := [] } := by
  simp [handleWatchEvent, hsup]

theorem handleWatchEvent_write (env : Env) (store : Store) (ev : WatchEvent)
    {h : String} (hsup : isSupportedFile ev.name = true)
    (hwc : (ev.hasWrite || ev.hasCreate) = true) (hh : ev.hashResult = some h) :
    handleWatchEvent env store ev =
      (processAndEmbedFile
        (if env.deleteOk ev.name then doDelete { store := store, trace := [] } ev.name
         else { store := store, trace := [] }) ev.name h ev.readRes).1 := by
  simp only [handleWatchEvent, hsup, hwc, hh]
  rfl

theorem handleWatchEvent_write_hashNone (env : Env) (store : Store)
    (ev : WatchEvent) (hsup : isSupportedFile ev.name = true)
    (hwc : (ev.hasWrite || ev.hasCreate) = true) (hh : ev.hashResult = none) :
    handleWatchEvent env store ev = { store := store, trace := [] } := by
  simp [handleWatchEvent, hsup, hwc, hh]

theorem handleWatchEvent_remove (env : Env) (store : Store) (ev : WatchEvent)
    (hsup : isSupportedFile ev.name = true)
    (hwc : (ev.hasWrite || ev.hasCreate) = false)
    (hrr : (ev.hasRemove || ev.hasRename) = true) :
    handleWatchEvent env store ev =
      if env.deleteOk ev.name then doDelete { store := store, trace := [] } ev.name
      else { store := store, trace := [] } := by
  simp [handleWatchEvent, hsup, hwc, hrr]

theorem handleWatchEvent_other (env : Env) (store : Store) (ev : WatchEvent)
    (hsup : isSupportedFile ev.name = true)
    (hwc : (ev.hasWrite || ev.hasCreate) = false)
    (hrr : (ev.hasRemove || ev.hasRename) = false) :
    handleWatchEvent env store ev = { store := store, trace := [] } := by
  simp [handleWatchEvent, hsup, hwc, hrr]

theorem watch_trace_shape (env : Env) (store : Store) (ev : WatchEvent) :
    ∃ ds as, (handleWatchEvent env store ev).trace = ds ++ as ∧
      (∀ o ∈ ds, o = StoreOp.del ev.name) ∧
      (∀ o ∈ as, ∃ h j tx, o = StoreOp.add ev.name h j tx) := by
  by_cases hsup : isSupportedFile ev.name
  · by_cases hwc : (ev.hasWrite || ev.hasCreate) = true
    · rcases hh : ev.hashResult with _ | h
      · rw [handleWatchEvent_write_hashNone env store ev hsup hwc hh]
        exact ⟨[], [], rfl, by simp, by simp⟩
      · rw [handleWatchEvent_write env store ev hsup hwc hh]
        by_cases hdel : env.deleteOk ev.name
        · rw [if_pos hdel]
          obtain ⟨t, a, _, h2, _, h4⟩ := processAndEmbedFile_shape
            (doDelete { store := store, trace := [] } ev.name) ev.name h ev.readRes
          refine ⟨[StoreOp.del ev.name], a, ?_, by simp,
            fun o ho => by obtain ⟨j, tx, hj⟩ := h4 o ho; exact ⟨h, j, tx, hj⟩⟩
          rw [h2]
          rfl
        · rw [if_neg hdel]
          obtain ⟨t, a, _, h2, _, h4⟩ := processAndEmbedFile_shape
            { store := store, trace := [] } ev.name h ev.readRes
          refine ⟨[], a, ?_, by simp,
            fun o ho => by obtain ⟨j, tx, hj⟩ := h4 o ho; exact ⟨h, j, tx, hj⟩⟩
          rw [h2]
    · by_cases hrr : (ev.hasRemove || ev.hasRename) = true
      · rw [handleWatchEvent_remove env store ev hsup (by simpa using hwc) hrr]
        by_cases hdel : env.deleteOk ev.name
        · rw [if_pos hdel]
          exact ⟨[StoreOp.del ev.name], [], rfl, by simp, by simp⟩
        · rw [if_neg hdel]
          exact ⟨[], [], rfl, by simp, by simp⟩
      · rw [handleWatchEvent_other env store ev hsup (by simpa using hwc)
          (by simpa using hrr)]
        exact ⟨[], [], rfl, by simp, by simp⟩
  · rw [handleWatchEvent_unsupported env store ev (by simpa using hsup)]
    exact ⟨[], [], rfl, by simp, by simp⟩

theorem watch_noDelAfterAdd (env : Env) (store : Store) (ev : WatchEvent)
    (p : String) :
    noDelAfterAdd p (handleWatchEvent env store ev).trace = true := by
  obtain ⟨ds, as, ht, hds, has⟩ := watch_trace_shape env store ev
  rw [ht]
  exact noDelAfterAdd_dels_adds hds has

theorem watch_mem_none (env : Env) (store : Store) (ev : WatchEvent)
    {d : Doc} (hd : d ∈ store) (hsf : d.meta.source_file = none) :
    d ∈ (handleWatchEvent env store ev).store := by
  by_cases hsup : isSupportedFile ev.name
  · by_cases hwc : (ev.hasWrite || ev.hasCreate) = true
    · rcases hh : ev.hashResult with _ | h
      · rw [handleWatchEvent_write_hashNone env store ev hsup hwc hh]
        exact hd
      · rw [handleWatchEvent_write env store ev hsup hwc hh]
        by_cases hdel : env.deleteOk ev.name
        · rw [if_pos hdel]
          exact mem_processAndEmbedFile (mem_delete_of_none hd hsf) ev.name h ev.readRes
        · rw [if_neg hdel]
          exact mem_processAndEmbedFile hd ev.name h ev.readRes
    · by_cases hrr : (ev.hasRemove || ev.hasRename) = true
      · rw [handleWatchEvent_remove env store ev hsup (by simpa using hwc) hrr]
        by_cases hdel : env.deleteOk ev.name
        · rw [if_pos hdel]
          exact mem_delete_of_none hd hsf
        · rw [if_neg hdel]
          exact hd
      · rw [handleWatchEvent_other env store ev hsup (by simpa using hwc)
          (by simpa using hrr)]
        exact hd
  · rw [handleWatchEvent_unsupported env store ev (by simpa using hsup)]
    exact hd

theorem watch_docsFor_write (store : Store) (ev : WatchEvent) {h : String}
    {cs : List ChunkRun} (hsup : isSupportedFile ev.name = true)
    (hwc : (ev.hasWrite || ev.hasCreate) = true) (hh : ev.hashResult = some h)
    (hres : ev.readRes = some cs)
    (hcs : ∀ c ∈ cs, c.embedOk = true ∧ c.addOk = true) :
    docsFor (handleWatchEvent allOk store ev).store ev.name =
      mkChunkDocs ev.name h 0 cs := by
  have hdel : allOk.deleteOk ev.name = true := rfl
  rw [handleWatchEvent_write allOk store ev hsup hwc hh, if_pos hdel, hres,
    processAndEmbedFile_allOk _ ev.name h cs hcs]
  show docsFor ((doDelete { store := store, trace := [] } ev.name).store ++
    mkChunkDocs ev.name h 0 cs) ev.name = _
  rw [docsFor_append, docsFor_mkChunkDocs, if_pos rfl]
  show docsFor (deleteDocumentsByFilepath store ev.name) ev.name ++ _ = _
  rw [docsFor_delete, if_pos rfl, List.nil_append]

theorem addChunksFrom_append_good (r : Run) (q h : String) (i : Nat)
    (good tail : List ChunkRun)
    (hgood : ∀ c ∈ good, c.embedOk = true ∧ c.addOk = true) :
    addChunksFrom r q h i (good ++ tail) =
      addChunksFrom
        { store := r.store ++ mkChunkDocs q h i good
          trace := r.trace ++ addOps q h i good }
        q h (i + good.length) tail := by
  induction good generalizing r i with
  | nil => simp [mkChunkDocs, addOps]
  | cons c rest2 ih =>
    obtain ⟨he, ha⟩ := hgood c (List.mem_cons_self _ _)
    have hrest : ∀ c2 ∈ rest2, c2.embedOk = true ∧ c2.addOk = true :=
      fun c2 hc2 => hgood c2 (List.mem_cons_of_mem _ hc2)
    show addChunksFrom r q h i (c :: (rest2 ++ tail)) = _
    simp only [addChunksFrom, he, ha, if_true]
    rw [ih (doAdd r q h i c.text) (i + 1) hrest]
    have hst : (doAdd r q h i c.text).store ++ mkChunkDocs q h (i + 1) rest2 =
        r.store ++ mkChunkDocs q h i (c :: rest2) := by
      simp [doAdd, mkChunkDocs]
    have htr : (doAdd r q h i c.text).trace ++ addOps q h (i + 1) rest2 =
        r.trace ++ addOps q h i (c :: rest2) := by
      simp [doAdd, addOps]
    have hidx : i + 1 + rest2.length = i + (c :: rest2).length := by
      simp [List.length_cons]
      omega
    rw [hst, htr, hidx]

theorem scanStep_hashNone (env : Env) (snap : Store) (r : Run) (l : List String)
    (e : FileRun) (hh : e.hashResult = none) :
    (scanStep env snap (r, l) e).1 = r := by
  by_cases hdir : e.isDir
  · rw [scanStep_skip env snap r l e (Or.inl hdir)]
  · have hdir2 : e.isDir = false := by simpa using hdir
    by_cases hsup : isSupportedFile e.path
    · rw [scanStep_walked_hashNone env snap r l e hdir2 hsup hh]
    · rw [scanStep_skip env snap r l e (Or.inr (by simpa using hsup))]

theorem docsFor_foldl_hashNone (env : Env) (snap : Store)
    (files : List FileRun) (r : Run) (l : List String) (p : String)
    (hall : ∀ e ∈ files, e.path = p → e.hashResult = none) :
    docsFor ((files.foldl (scanStep env snap) (r, l)).1).store p =
      docsFor r.store p := by
  induction files generalizing r l with
  | nil => rfl
  | cons e rest ih =>
    rw [foldl_scanStep_cons]
    by_cases hpe : e.path = p
    · have hh := hall e (List.mem_cons_self _ _) hpe
      rw [scanStep_hashNone env snap r l e hh]
      exact ih _ _ fun e2 he2 hp2 => hall e2 (List.mem_cons_of_mem _ he2) hp2
    · rw [ih _ _ fun e2 he2 hp2 => hall e2 (List.mem_cons_of_mem _ he2) hp2]
      exact docsFor_scanStep_ne env snap r l e fun hc => hpe hc.symm

/-! ### Claim theorems -/

/-- C1, counterexample: the claim says a failing chunk is skipped and the
remaining chunks of the same file are still indexed.  On the concrete input
where chunk 0 fails to embed and chunk 1 would embed and insert
successfully, the code aborts the file at chunk 0: the document of chunk 1
is not in the resulting store (which is unchanged). -/
theorem C1_counterexample :
    ¬(mkChunkDoc "a.txt" "h1" 1 "c1" ∈
        (processAndEmbedFile { store := [], trace := [] } "a.txt" "h1"
          (some [{ text := "c0", embedOk := false, addOk := true },
                 { text := "c1", embedOk := true, addOk := true }])).1.store) := by
  decide

/-- C1 (amended): during the Index operation for a (path, hash) pair, a
failure to embed or to insert one chunk aborts processing of that file: the
chunks before the failing one stay inserted, the failing chunk and every
later chunk of the same file are not indexed, and the error is returned to
the caller (which logs it). -/
theorem C1_per_file_abort (r : Run) (path hash : String)
    (good : List ChunkRun) (bad : ChunkRun) (rest : List ChunkRun)
    (hgood : ∀ c ∈ good, c.embedOk = true ∧ c.addOk = true)
    (hbad : bad.embedOk = false ∨ bad.addOk = false) :
    (processAndEmbedFile r path hash (some (good ++ bad :: rest))).1.store =
        r.store ++ mkChunkDocs path hash 0 good ∧
      (processAndEmbedFile r path hash (some (good ++ bad :: rest))).2 = false := by
  have hstep : processAndEmbedFile r path hash (some (good ++ bad :: rest)) =
      addChunksFrom r path hash 0 (good ++ bad :: rest) := rfl
  rw [hstep, addChunksFrom_append_good r path hash 0 good (bad :: rest) hgood]
  by_cases hbe : bad.embedOk
  · have hba : bad.addOk = false := by
      rcases hbad with hc | hc
      · rw [hbe] at hc
        cases hc
      · exact hc
    simp [addChunksFrom, hbe, hba]
  · have hbe2 : bad.embedOk = false := by simpa using hbe
    simp [addChunksFrom, hbe2]

/-- C1, witness: the amended theorem applied at one good chunk followed by a
chunk whose embedding fails and one more good chunk. -/
theorem C1_witness :
    (∀ c ∈ [({ text := "c0", embedOk := true, addOk := true } : ChunkRun)],
      c.embedOk = true ∧ c.addOk = true) ∧
    (({ text := "c1", embedOk := false, addOk := true } : ChunkRun).embedOk = false ∨
      ({ text := "c1", embedOk := false, addOk := true } : ChunkRun).addOk = false) ∧
    ((processAndEmbedFile { store := [], trace := [] } "a.txt" "h1"
        (some ([{ text := "c0", embedOk := true, addOk := true }] ++
          { text := "c1", embedOk := false, addOk := true } ::
          [{ text := "c2", embedOk := true, addOk := true }]))).1.store =
      [] ++ mkChunkDocs "a.txt" "h1" 0
        [{ text := "c0", embedOk := true, addOk := true }] ∧
    (processAndEmbedFile { store := [], trace := [] } "a.txt" "h1"
        (some ([{ text := "c0", embedOk := true, addOk := true }] ++
          { text := "c1", embedOk := false, addOk := true } ::
          [{ text := "c2", embedOk := true, addOk := true }]))).2 = false) :=
  ⟨by decide, by decide,
    C1_per_file_abort { store := [], trace := [] } "a.txt" "h1"
      [{ text := "c0", embedOk := true, addOk := true }]
      { text := "c1", embedOk := false, addOk := true }
      [{ text := "c2", embedOk := true, addOk := true }]
      (by decide) (by decide)⟩

/-- C2, counterexample: the claim says that after a walk error the scan
performs no further store mutations and the deletion phase does not run.  On
the concrete input where the store holds one chunk for a file, the walk
visited nothing and then failed, the scan still runs the deletion phase: the
chunk is deleted and a delete operation is issued. -/
theorem C2_counterexample :
    (scanAndIndexDirectory allOk [oldDoc]
        { getOk := true, files := [], walkFailed := true }).store = [] ∧
      (scanAndIndexDirectory allOk [oldDoc]
        { getOk := true, files := [], walkFailed := true }).trace =
        [StoreOp.del "a.txt"] := by
  decide

/-- C2 (amended): a walk error is logged and ends the walk, and the service
stays alive, but the scan does not stop there: the deletion phase still
runs, and every snapshot path that was not observed before the walk failed
has its chunks deleted. -/
theorem C2_deletion_after_walk_error (env : Env) (store : Store)
    (files : List FileRun) (p : String) (hp : p ∈ snapshotPaths store)
    (hw : p ∉ walkedPaths files) (hdel : env.deleteOk p = true) :
    docsFor (scanAndIndexDirectory env store
      { getOk := true, files := files, walkFailed := true }).store p = [] :=
  scan_docsFor_deleted env store _ p rfl hp hw hdel

/-- C2, witness: the amended theorem applied to a one-chunk store and an
empty failed walk. -/
theorem C2_witness :
    "a.txt" ∈ snapshotPaths [oldDoc] ∧
    "a.txt" ∉ walkedPaths ([] : List FileRun) ∧
    allOk.deleteOk "a.txt" = true ∧
    docsFor (scanAndIndexDirectory allOk [oldDoc]
      { getOk := true, files := [], walkFailed := true }).store "a.txt" = [] :=
  ⟨by decide, by decide, rfl,
    C2_deletion_after_walk_error allOk [oldDoc] [] "a.txt"
      (by decide) (by decide) rfl⟩

/-- C7: the repository README and the server README document the supported
extension set as including `.pdf` (and a PDF text extractor exists in
`extractor_service.go`), but `isSupportedFile` accepts only `.txt` and
`.md`: a `.pdf` file is invisible to the index — a scan over one good
`.pdf` file inserts nothing — while `.txt` and `.md` files are accepted. -/
theorem C7_pdf_not_indexed :
    isSupportedFile "doc.pdf" = false ∧
    isSupportedFile "notes.txt" = true ∧
    isSupportedFile "notes.md" = true ∧
    (scanAndIndexDirectory allOk []
      { getOk := true
        files := [{ path := "doc.pdf", isDir := false, hashResult := some "h1",
                    readRes := some [okChunk] }]
        walkFailed := false }).store = [] := by
  decide

/-- C8: the snapshot builder returns an empty map on an empty collection,
and for each path records the `file_hash` of the first stored metadata entry
that carries both `source_file = p` and a hash — entries before it for the
same path without a hash are skipped, and entries after it (the `post` part)
never overwrite it. -/
theorem C8_snapshot_builder (p h : String) (d : Doc) (pre post : Store)
    (hsf : d.meta.source_file = some p) (hfh : d.meta.file_hash = some h)
    (hpre : ∀ d2 ∈ pre, d2.meta.source_file = some p →
      d2.meta.file_hash = none) :
    getCurrentIndexState [] p = none ∧
      getCurrentIndexState (pre ++ d :: post) p = some h := by
  refine ⟨rfl, ?_⟩
  induction pre with
  | nil => simpa using getCurrentIndexState_cons_some hsf hfh post
  | cons d2 rest ih =>
    have h2 := hpre d2 (List.mem_cons_self _ _)
    rw [List.cons_append, getCurrentIndexState_cons_skip]
    · exact ih fun d3 hd3 h3 => hpre d3 (List.mem_cons_of_mem _ hd3) h3
    · rintro ⟨ha, hb⟩
      rw [h2 ha] at hb
      cases hb

/-- C8, witness: the snapshot of a store holding a hashless entry for the
path, then two hashed entries, maps the path to the first hash. -/
theorem C8_witness :
    ((mkChunkDoc "a.txt" "h1" 0 "c0").meta.source_file = some "a.txt") ∧
    ((mkChunkDoc "a.txt" "h1" 0 "c0").meta.file_hash = some "h1") ∧
    (∀ d2 ∈ [noteDoc "n"], d2.meta.source_file = some "a.txt" →
      d2.meta.file_hash = none) ∧
    (getCurrentIndexState [] "a.txt" = none ∧
      getCurrentIndexState ([noteDoc "n"] ++ mkChunkDoc "a.txt" "h1" 0 "c0" ::
        [mkChunkDoc "a.txt" "h9" 1 "c1"]) "a.txt" = some "h1") :=
  ⟨by decide, by decide, by decide,
    C8_snapshot_builder "a.txt" "h1" (mkChunkDoc "a.txt" "h1" 0 "c0")
      [noteDoc "n"] [mkChunkDoc "a.txt" "h9" 1 "c1"]
      (by decide) (by decide) (by decide)⟩

/-- C9: a user note is stored with only a `source = user_input` attribute
and no `source_file` or `file_hash`, so it never appears in the IndexState
snapshot, is never matched by a `source_file` delete filter, and survives
any batch scan and any watcher event unchanged. -/
theorem C9_user_notes_untouched (t : String) (env : Env) (store : Store)
    (inp : ScanInput) (ev : WatchEvent) (p : String) (hd : noteDoc t ∈ store) :
    ingestNote store t true true = store ++ [noteDoc t] ∧
    (noteDoc t).meta.source_file = none ∧
    (noteDoc t).meta.file_hash = none ∧
    (noteDoc t).meta.source = some "user_input" ∧
    snapshotPaths [noteDoc t] = [] ∧
    getCurrentIndexState [noteDoc t] p = none ∧
    noteDoc t ∈ deleteDocumentsByFilepath store p ∧
    noteDoc t ∈ (scanAndIndexDirectory env store inp).store ∧
    noteDoc t ∈ (handleWatchEvent env store ev).store := by
  refine ⟨rfl, rfl, rfl, rfl, rfl, rfl, ?_, ?_, ?_⟩
  · exact mem_delete_of_none hd rfl
  · exact scan_mem_none env store inp hd rfl
  · exact watch_mem_none env store ev hd rfl

/-- C9, witness: a stored note survives a scan of one good file and a write
event and is not matched by a delete filter for that path. -/
theorem C9_witness :
    noteDoc "note" ∈ [noteDoc "note", oldDoc] ∧
    (ingestNote [noteDoc "note", oldDoc] "note" true true =
        [noteDoc "note", oldDoc] ++ [noteDoc "note"] ∧
      (noteDoc "note").meta.source_file = none ∧
      (noteDoc "note").meta.file_hash = none ∧
      (noteDoc "note").meta.source = some "user_input" ∧
      snapshotPaths [noteDoc "note"] = [] ∧
      getCurrentIndexState [noteDoc "note"] "a.txt" = none ∧
      noteDoc "note" ∈ deleteDocumentsByFilepath [noteDoc "note", oldDoc] "a.txt" ∧
      noteDoc "note" ∈
        (scanAndIndexDirectory allOk [noteDoc "note", oldDoc] okScan).store ∧
      noteDoc "note" ∈
        (handleWatchEvent allOk [noteDoc "note", oldDoc] writeEvent).store) :=
  ⟨by decide,
    C9_user_notes_untouched "note" allOk [noteDoc "note", oldDoc] okScan
      writeEvent "a.txt" (by decide)⟩

/-- C10: during a batch scan, a supported file whose hash computation fails
is recorded in the walked set before hashing, so its existing chunks are
neither deleted nor re-indexed: the documents stored for its path are
exactly those stored before the scan. -/
theorem C10_hash_failure_preserves (env : Env) (store : Store)
    (inp : ScanInput) (e : FileRun) (hget : inp.getOk = true)
    (he : e ∈ inp.files) (hdir : e.isDir = false)
    (hsup : isSupportedFile e.path = true)
    (hhall : ∀ e2 ∈ inp.files, e2.path = e.path → e2.hashResult = none) :
    docsFor (scanAndIndexDirectory env store inp).store e.path =
      docsFor store e.path := by
  rw [scan_unfold env store inp hget,
    deletePhase_docsFor_kept env _ _ _
      (Or.inr (by
        rw [foldl_scanStep_locals]
        simpa using mem_walkedPaths he hdir hsup))]
  exact docsFor_foldl_hashNone env store inp.files _ _ e.path hhall

/-- C10, witness: a store holding one old chunk for the file, scanned while
the hash of that file fails, keeps the chunk unchanged. -/
theorem C10_witness :
    ({ getOk := true
       files := [{ path := "a.txt", isDir := false, hashResult := none,
                   readRes := none }]
       walkFailed := false } : ScanInput).getOk = true ∧
    ({ path := "a.txt", isDir := false, hashResult := none,
        readRes := none } : FileRun) ∈
      ({ getOk := true
         files := [{ path := "a.txt", isDir := false, hashResult := none,
                     readRes := none }]
         walkFailed := false } : ScanInput).files ∧
    docsFor (scanAndIndexDirectory allOk [oldDoc]
        { getOk := true
          files := [{ path := "a.txt", isDir := false, hashResult := none,
                      readRes := none }]
          walkFailed := false }).store "a.txt" = docsFor [oldDoc] "a.txt" :=
  ⟨rfl, by decide,
    C10_hash_failure_preserves allOk [oldDoc]
      { getOk := true
        files := [{ path := "a.txt", isDir := false, hashResult := none,
                    readRes := none }]
        walkFailed := false }
      { path := "a.txt", isDir := false, hashResult := none, readRes := none }
      rfl (by decide) rfl (by decide) (by decide)⟩

/-- C3, counterexample: the claim says that with no per-file errors the
post-scan set of distinct source_file values equals the set of supported
files on disk.  An empty supported file is an error-free input — reading
succeeds and SplitText returns zero chunks with a nil error — yet indexing
it inserts nothing: after scanning one such file into an empty store, the
file is in the walked supported set but no stored document carries its
path, so the claimed set equality fails. -/
theorem C3_counterexample :
    goodFile emptyFile = true ∧
    "a.txt" ∈ walkedPaths [emptyFile] ∧
    ¬(∃ d ∈ (scanAndIndexDirectory allOk []
        { getOk := true, files := [emptyFile], walkFailed := false }).store,
      d.meta.source_file = some "a.txt") := by
  decide

/-- C3 (amended): convergence of the batch scan for files with content.  If
the snapshot query succeeds, the store is well-formed, the walk completes
without error over pairwise distinct supported files, no per-file error
occurs, and every walked supported file splits into at least one chunk,
then after the scan the set of distinct source_file values in the store is
exactly the set of supported regular files observed by the walk: new files
are inserted and every snapshot path absent from the walked set has its
chunks deleted.  (A supported file that splits into zero chunks — an empty
file — is walked and protected from deletion but contributes no
source_file value.) -/
theorem C3_convergence (store : Store) (inp : ScanInput) (p : String)
    (hwf : WellFormed store) (hget : inp.getOk = true)
    (hgood : ∀ e ∈ inp.files, goodFile e = true)
    (hchunks : ∀ e ∈ inp.files, e.isDir = false →
      isSupportedFile e.path = true → e.readRes ≠ some [])
    (hnodup : (walkedPaths inp.files).Nodup) :
    (∃ d ∈ (scanAndIndexDirectory allOk store inp).store,
        d.meta.source_file = some p) ↔ p ∈ walkedPaths inp.files := by
  constructor
  · rintro ⟨d, hd, hsf⟩
    by_contra hw
    have hmem : d ∈ docsFor (scanAndIndexDirectory allOk store inp).store p :=
      mem_docsFor.mpr ⟨hd, hsf⟩
    rw [scan_docsFor_not_walked_nil store inp p hwf hget hw] at hmem
    cases hmem
  · intro hp
    obtain ⟨e, he, hpath, hdir, hsup⟩ := exists_of_mem_walkedPaths hp
    subst hpath
    obtain ⟨h, cs, hh, hres, hcs⟩ := goodFile_elim (hgood e he) hdir hsup
    have hcsne : cs ≠ [] := by
      intro hc
      exact hchunks e he hdir hsup (hc ▸ hres)
    have hne : docsFor (scanAndIndexDirectory allOk store inp).store e.path ≠ [] := by
      rcases hgs : getCurrentIndexState store e.path with _ | oldH
      · rw [scan_docsFor_walked_new store inp e hget he hdir hsup hh hres hcs
          hnodup hgs]
        intro hc
        exact mkChunkDocs_ne_nil hcsne (List.append_eq_nil.mp hc).2
      · by_cases hold : oldH = h
        · subst hold
          rw [scan_docsFor_walked_unchanged store inp e hget he hdir hsup hh hres
            hcs hnodup hgs]
          exact docsFor_ne_nil_of_gcis hgs
        · rw [scan_docsFor_walked_changed store inp e hget he hdir hsup hh hres
            hcs hnodup hgs hold]
          exact mkChunkDocs_ne_nil hcsne
    rcases hlist : docsFor (scanAndIndexDirectory allOk store inp).store e.path
      with _ | ⟨d, rest2⟩
    · exact absurd hlist hne
    · have hd : d ∈ docsFor (scanAndIndexDirectory allOk store inp).store e.path := by
        rw [hlist]
        exact List.mem_cons_self _ _
      obtain ⟨hmem, hsf⟩ := mem_docsFor.mp hd
      exact ⟨d, hmem, hsf⟩

/-- C3, witness: scanning one good nonempty file into an empty store yields
exactly that file as source. -/
theorem C3_witness :
    WellFormed [] ∧ okScan.getOk = true ∧
    (∀ e ∈ okScan.files, goodFile e = true) ∧
    (∀ e ∈ okScan.files, e.isDir = false → isSupportedFile e.path = true →
      e.readRes ≠ some []) ∧
    (walkedPaths okScan.files).Nodup ∧
    ((∃ d ∈ (scanAndIndexDirectory allOk [] okScan).store,
        d.meta.source_file = some "a.txt") ↔
      "a.txt" ∈ walkedPaths okScan.files) :=
  ⟨fun d hd => absurd hd (List.not_mem_nil d), rfl, by decide, by decide,
    by decide,
    C3_convergence [] okScan "a.txt"
      (fun d hd => absurd hd (List.not_mem_nil d)) rfl (by decide) (by decide)
      (by decide)⟩

/-- C4: no duplication after re-indexing a modified file.  Whether the
re-index is done by the batch scan (snapshot hash differs from the current
hash) or by a watcher write/create event, once reconciliation of that path
completes the store holds a nonempty chunk set for the path in which every
chunk carries the single new file_hash value: chunks of the old and the new
version never both persist. -/
theorem C4_no_duplication :
    (∀ (store : Store) (inp : ScanInput) (e : FileRun) (h oldH : String)
        (cs : List ChunkRun),
      inp.getOk = true → e ∈ inp.files → e.isDir = false →
      isSupportedFile e.path = true → e.hashResult = some h →
      e.readRes = some cs → cs ≠ [] →
      (∀ c ∈ cs, c.embedOk = true ∧ c.addOk = true) →
      (walkedPaths inp.files).Nodup →
      getCurrentIndexState store e.path = some oldH → oldH ≠ h →
      docsFor (scanAndIndexDirectory allOk store inp).store e.path ≠ [] ∧
        ∀ d ∈ docsFor (scanAndIndexDirectory allOk store inp).store e.path,
          d.meta.file_hash = some h) ∧
    (∀ (store : Store) (ev : WatchEvent) (h : String) (cs : List ChunkRun),
      isSupportedFile ev.name = true → (ev.hasWrite || ev.hasCreate) = true →
      ev.hashResult = some h → ev.readRes = some cs → cs ≠ [] →
      (∀ c ∈ cs, c.embedOk = true ∧ c.addOk = true) →
      docsFor (handleWatchEvent allOk store ev).store ev.name ≠ [] ∧
        ∀ d ∈ docsFor (handleWatchEvent allOk store ev).store ev.name,
          d.meta.file_hash = some h) := by
  constructor
  · intro store inp e h oldH cs hget he hdir hsup hh hres hcsne hcs hnodup hgs hne
    rw [scan_docsFor_walked_changed store inp e hget he hdir hsup hh hres hcs
      hnodup hgs hne]
    exact ⟨mkChunkDocs_ne_nil hcsne, fun d hd => (mem_mkChunkDocs_sf hd).2⟩
  · intro store ev h cs hsup hwc hh hres hcsne hcs
    rw [watch_docsFor_write store ev hsup hwc hh hres hcs]
    exact ⟨mkChunkDocs_ne_nil hcsne, fun d hd => (mem_mkChunkDocs_sf hd).2⟩

/-- C4, witness: both parts applied to a store holding one old-hash chunk
for the file, re-indexed by a scan and by a write event. -/
theorem C4_witness :
    (getCurrentIndexState [oldDoc] "a.txt" = some "h0" ∧ "h0" ≠ "h1" ∧
      docsFor (scanAndIndexDirectory allOk [oldDoc] okScan).store "a.txt" ≠ [] ∧
      ∀ d ∈ docsFor (scanAndIndexDirectory allOk [oldDoc] okScan).store "a.txt",
        d.meta.file_hash = some "h1") ∧
    (docsFor (handleWatchEvent allOk [oldDoc] writeEvent).store "a.txt" ≠ [] ∧
      ∀ d ∈ docsFor (handleWatchEvent allOk [oldDoc] writeEvent).store "a.txt",
        d.meta.file_hash = some "h2") :=
  ⟨⟨by decide, by decide,
    C4_no_duplication.1 [oldDoc] okScan okFile "h1" "h0" [okChunk] rfl
      (by decide) rfl (by decide) rfl rfl (by decide) (by decide) (by decide)
      (by decide) (by decide)⟩,
   C4_no_duplication.2 [oldDoc] writeEvent "h2" [okChunk] (by decide) rfl rfl
     rfl (by decide) (by decide)⟩

/-- C5: per-path delete-before-insert ordering.  In the mutation trace of
one scan (over pairwise distinct walked paths) and in the trace of one
watcher event, every delete of a path happens before every insertion for
that same path: once a chunk of a path has been inserted, no delete of that
path follows. -/
theorem C5_delete_before_insert (env : Env) (store : Store) (inp : ScanInput)
    (ev : WatchEvent) (p : String)
    (hnodup : (walkedPaths inp.files).Nodup) :
    noDelAfterAdd p (scanAndIndexDirectory env store inp).trace = true ∧
      noDelAfterAdd p (handleWatchEvent env store ev).trace = true :=
  ⟨scan_noDelAfterAdd env store inp p hnodup, watch_noDelAfterAdd env store ev p⟩

/-- C5, witness: the ordering theorem applied to a one-file scan over a
one-chunk store and to a write event. -/
theorem C5_witness :
    (walkedPaths okScan.files).Nodup ∧
    (noDelAfterAdd "a.txt"
        (scanAndIndexDirectory allOk [oldDoc] okScan).trace = true ∧
      noDelAfterAdd "a.txt"
        (handleWatchEvent allOk [oldDoc] writeEvent).trace = true) :=
  ⟨by decide,
    C5_delete_before_insert allOk [oldDoc] okScan writeEvent "a.txt" (by decide)⟩

/-- C6: idempotence of the batch scan.  If a scan over good, pairwise
distinct walked files of a well-formed store completes, then running the
same scan again immediately (no filesystem change, so the same walk
entries) issues zero store mutations: the trace of the second run is empty
and its store equals the store left by the first run — every file compares
equal to its snapshot hash and is skipped, and the deletion phase deletes
nothing. -/
theorem C6_idempotence (store : Store) (inp : ScanInput)
    (hwf : WellFormed store) (hget : inp.getOk = true)
    (hgood : ∀ e ∈ inp.files, goodFile e = true)
    (hnodup : (walkedPaths inp.files).Nodup) :
    scanAndIndexDirectory allOk
        (scanAndIndexDirectory allOk store inp).store inp =
      { store := (scanAndIndexDirectory allOk store inp).store, trace := [] } := by
  refine scan_id allOk _ inp hget ?_ ?_
  · intro e he hdir hsup
    obtain ⟨h, cs, hh, hres, hcs⟩ := goodFile_elim (hgood e he) hdir hsup
    refine ⟨h, hh, ?_⟩
    rcases scan_gcis_walked_general store inp e hwf hget he hdir hsup hh hres
        hcs hnodup with hc | ⟨hc, hcs0⟩
    · exact Or.inl hc
    · exact Or.inr ⟨hc, by rw [hres, hcs0]⟩
  · intro q hq
    exact scan_snapshotPaths_sub store inp hwf hget hq

/-- C6, witness: scanning one good file twice; the second run is the
identity with an empty trace. -/
theorem C6_witness :
    WellFormed [oldDoc] ∧ okScan.getOk = true ∧
    (∀ e ∈ okScan.files, goodFile e = true) ∧
    (walkedPaths okScan.files).Nodup ∧
    scanAndIndexDirectory allOk
        (scanAndIndexDirectory allOk [oldDoc] okScan).store okScan =
      { store := (scanAndIndexDirectory allOk [oldDoc] okScan).store,
        trace := [] } :=
  ⟨fun d hd hsome => by rcases List.mem_singleton.mp hd with rfl; rfl,
    rfl, by decide, by decide,
    C6_idempotence [oldDoc] okScan
      (fun d hd hsome => by rcases List.mem_singleton.mp hd with rfl; rfl)
      rfl (by decide) (by decide)⟩

end LocalRag
